import Mathlib

/-!
Verification of the two page-structured index engines of this repository:
a B-tree variant (`btree.py`) and a Linear Hashing variant (`linear_hash.py`),
both built on the primitives of `base.py`.

The embedding is shallow: records are lists of integers keyed by their first
element, pages are inductive trees, and every operation of the source is
translated into an executable Lean function.  Byte sizes (`__sizeof__` in
CPython) are parameters of the model: a context structure carries the page
budget `S` and the size functions, because `__sizeof__` is
implementation-defined; the spec only requires a deterministic size function.
Concrete instantiations (matching CPython-on-64-bit values) are used for the
concrete evaluations.
-/

/-- Records are tuples/lists of integers; element 0 is the key (`record[0]`). -/
abbrev Rec := List Int

/-- Key of a record, `record[0]`.  The source indexes position 0 directly and
would raise on an empty record; theorems that care assume records nonempty. -/
def rkey (r : Rec) : Int := r.headI

/-- Python `list.insert(pos, a)`: inserts before index `pos`, clamping to an
append when `pos` exceeds the length (exactly `take pos ++ a :: drop pos`). -/
def pyInsert (pos : Nat) (a : α) (l : List α) : List α :=
  l.take pos ++ a :: l.drop pos

/-- The `while begin < end` loop of `TreePage.binary_search`, with an explicit
fuel argument so the definition is structural; with fuel at least `e - b` it
computes exactly what the source loop computes (each iteration shrinks
`e - b` by at least one).  `L.getD h 0` is the probe `L[h]`. -/
def bsFuel (L : List Int) (key : Int) : Nat → Nat → Nat → Nat
  | 0, b, _ => b
  | fuel + 1, b, e =>
    if b < e then
      let h := (b + e) / 2
      if key < L.getD h 0 then bsFuel L key fuel b h
      else bsFuel L key fuel (h + 1) e
    else b

/-- `TreePage.binary_search(key)` with the default `begin = 0`: the loop run
on the page's key list with `end = len(L)`.  Fuel `L.length` suffices. -/
def binSearch (L : List Int) (key : Int) : Nat :=
  bsFuel L key L.length 0 L.length

mutual
/-- A page of the B-tree: a leaf with its record list, or an internal page
with its flat payload of alternating children and separator keys. -/
inductive TPage where
  | leaf (data : List Rec)
  | node (data : List Cell)
/-- One payload slot of `NonLeafPage._data`: children sit at even positions
and separator keys at odd positions. -/
inductive Cell where
  | child (p : TPage)
  | key (k : Int)
end

/-- Elements at odd indices of a payload list (`range(1, len, 2)`). -/
def oddCells : List Cell → List Cell
  | [] => []
  | [_] => []
  | _ :: b :: t => b :: oddCells t

/-- Elements at even indices of a payload list (`range(0, len, 2)`). -/
def evenCells : List Cell → List Cell
  | [] => []
  | [a] => [a]
  | a :: _ :: t => a :: evenCells t

/-- Reads a cell as a key.  Under the alternating layout every odd position is
a key; on a child cell the source would compare a page object and crash, the
model returns 0 (never exercised by the stated theorems). -/
def cellKeyD : Cell → Int
  | .key k => k
  | .child _ => 0

/-- `NonLeafPage.get_key_list()`: the values at odd positions of the payload. -/
def keyList (l : List Cell) : List Int := (oddCells l).map cellKeyD

/-- `LeafPage.get_key_list()`: keys of the records. -/
def leafKeys (d : List Rec) : List Int := d.map rkey

/-- Size model for the B-tree: page budget `S` (`self._size`), and the
`__sizeof__`-based sizes summed by `get_size`: `szRec` for a record tuple in a
leaf, `szPage` for a child page object in an internal payload, `szKey` for a
separator key. -/
structure BCtx where
  S : Nat
  szRec : Rec → Nat
  szPage : Nat
  szKey : Int → Nat

/-- Size of one internal-payload cell under `get_size` (shallow sizes). -/
def cellSz (C : BCtx) : Cell → Nat
  | .child _ => C.szPage
  | .key k => C.szKey k

/-- `used_space` of a page: `get_size(self._data)`, the sum of the shallow
sizes of the payload slots. -/
def usedSpace (C : BCtx) : TPage → Nat
  | .leaf d => (d.map C.szRec).sum
  | .node d => (d.map (cellSz C)).sum

/-- `LeafPage.split()`: retain `data[:mid]`, give `data[mid:]` to the new
page, with `mid = len // 2`. -/
def splitLeafData (d : List Rec) : List Rec × List Rec :=
  (d.take (d.length / 2), d.drop (d.length / 2))

/-- The split index of `NonLeafPage.split()`: `mid = len // 2`, decremented
by one when odd so that it is even (a child position). -/
def splitMid (n : Nat) : Nat :=
  let m := n / 2
  if m % 2 = 1 then m - 1 else m

/-- `NonLeafPage.split()` on the payload: retain `data[:mid]`, new page gets
`data[mid:]`. -/
def splitNodeData (d : List Cell) : List Cell × List Cell :=
  (d.take (splitMid d.length), d.drop (splitMid d.length))

/-- `split()` of either page kind, returning (retained page, new page). -/
def splitP : TPage → TPage × TPage
  | .leaf d => (.leaf (splitLeafData d).1, .leaf (splitLeafData d).2)
  | .node d => (.node (splitNodeData d).1, .node (splitNodeData d).2)

/-- `LeafPage.get_key(position)`: key of the record at `position` (the source
returns `None` out of bounds; the model returns the key of the empty record,
never exercised under the theorems' hypotheses). -/
def leafGetKey (d : List Rec) (position : Nat) : Int :=
  rkey (d.getD position [])

/-- The separator computed by `_split_child` / the root split: dispatch on the
class of the page that was split (`isinstance(child, LeafPage)`), reading the
new sibling's first key either as `new.get_key(0)` (leaf) or as
`new.get_key_list()[0]` (internal). -/
def sepKeyFor : TPage → TPage → Int
  | .leaf _, .leaf d2 => leafGetKey d2 0
  | .leaf _, .node l2 => (keyList l2).headI
  | .node _, .leaf d2 => leafGetKey d2 0
  | .node _, .node l2 => (keyList l2).headI

/-- `LeafPage.insert(record)`: insert at the binary-search position.  The
source then `return True`; the boolean is recorded by `leafInsertB`. -/
def leafInsert (d : List Rec) (r : Rec) : List Rec :=
  pyInsert (binSearch (leafKeys d) (rkey r)) r d

/-- `LeafPage.insert` with its return value (`return True`). -/
def leafInsertB (d : List Rec) (r : Rec) : Bool × List Rec :=
  (true, leafInsert d r)

mutual
/-- Recursive insert, `TreePage.insert`: a leaf inserts in place; an internal
page delegates to the child at position `binary_search(key)` (which returns
`begin * 2`) and absorbs an overflowing child via `_split_child`. -/
def insP (C : BCtx) : TPage → Rec → TPage
  | .leaf d, r => .leaf (leafInsert d r)
  | .node d, r => .node (insCells C d (2 * binSearch (keyList d) (rkey r)) r)
/-- Walks an internal payload to the child position; past the end the source's
`if child_pos < len(self._data)` guard skips the insert ( `[]` case). -/
def insCells (C : BCtx) : List Cell → Nat → Rec → List Cell
  | [], _, _ => []
  | c :: t, 0, r => insHead C c t r
  | c :: t, n + 1, r => c :: insCells C t n r
/-- Inserts into the child at the head cell; when the child then overflows
(`child.used_space > child._size`), the `_split_child` update replaces it by
the retained half followed by `[new_key, new_child]` (the source's two
`list.insert` calls at `child_pos + 1` and `child_pos + 2`).  A key cell at a
child position would crash the source; the model leaves the payload
unchanged (never exercised under the layout invariant). -/
def insHead (C : BCtx) : Cell → List Cell → Rec → List Cell
  | .key k, t, _ => .key k :: t
  | .child p, t, r =>
    let p' := insP C p r
    if usedSpace C p' > C.S then
      .child (splitP p').1 :: .key (sepKeyFor p' (splitP p').2) :: .child (splitP p').2 :: t
    else
      .child p' :: t
end

mutual
/-- Recursive search: a leaf scans linearly collecting every match
(`LeafPage.search`); an internal page descends into the single child at the
binary-search position (`NonLeafPage.search`), returning `[]` when that
position is at or past the end of the payload. -/
def searchP : TPage → Int → List Rec
  | .leaf d, k => d.filter (fun r => rkey r = k)
  | .node d, k => searchCells d (2 * binSearch (keyList d) k) k
/-- Walks an internal payload to the descent position. -/
def searchCells : List Cell → Nat → Int → List Rec
  | [], _, _ => []
  | c :: _, 0, k => searchCell c k
  | _ :: t, n + 1, k => searchCells t n k
/-- Descends into a child cell; a key cell would crash the source. -/
def searchCell : Cell → Int → List Rec
  | .child p, k => searchP p k
  | .key _, _ => []
end

mutual
/-- Recursive remove: a leaf removes the first record with the key
(`LeafPage.remove`), an internal page delegates to the child at the
binary-search position with no rebalancing (`NonLeafPage.remove`), returning
`False` past the end. -/
def removeP : TPage → Int → TPage × Bool
  | .leaf d, k =>
    (.leaf (d.eraseP (fun r => rkey r = k)), d.any (fun r => rkey r = k))
  | .node d, k =>
    let res := removeCells d (2 * binSearch (keyList d) k) k
    (.node res.1, res.2)
/-- Walks an internal payload to the descent position for removal. -/
def removeCells : List Cell → Nat → Int → List Cell × Bool
  | [], _, _ => ([], false)
  | c :: t, 0, k => removeHead c t k
  | c :: t, n + 1, k =>
    let res := removeCells t n k
    (c :: res.1, res.2)
/-- Removes inside the child at the head cell; a key cell would crash the
source. -/
def removeHead : Cell → List Cell → Int → List Cell × Bool
  | .key k0, t, _ => (.key k0 :: t, false)
  | .child p, t, k =>
    let res := removeP p k
    (.child res.1 :: t, res.2)
end

mutual
/-- Tree height as computed by `BTreeIndex._get_height`: a leaf counts 1, an
internal node is 1 plus the maximum over the children at even payload
positions. -/
def heightP : TPage → Nat
  | .leaf _ => 1
  | .node d => 1 + heightCells d
/-- Maximum child height over the even positions (`range(0, len, 2)`). -/
def heightCells : List Cell → Nat
  | [] => 0
  | [c] => heightCell c
  | c :: _ :: t => max (heightCell c) (heightCells t)
/-- Height through one child cell; a key cell at an even position would crash
the source, it contributes 0 in the model (never exercised under the layout
invariant). -/
def heightCell : Cell → Nat
  | .child p => heightP p
  | .key _ => 0
end

mutual
/-- All records stored in a subtree, collected over the children at even
payload positions (the walk of `BTreeIndex._count_records` /
`_range_search_helper`). -/
def recsP : TPage → List Rec
  | .leaf d => d
  | .node d => recsCells d
/-- Record collection over the even positions of a payload. -/
def recsCells : List Cell → List Rec
  | [] => []
  | [c] => recsCell c
  | c :: _ :: t => recsCell c ++ recsCells t
/-- Records through one child cell; a key cell contributes nothing. -/
def recsCell : Cell → List Rec
  | .child p => recsP p
  | .key _ => []
end

mutual
/-- The skeleton of a tree: the same pages and separator keys with all leaf
records erased.  `remove` preserves it (used to state that removal touches
only leaf contents and never drops children or separator keys). -/
def skelP : TPage → TPage
  | .leaf _ => .leaf []
  | .node d => .node (skelCells d)
/-- Skeleton of a payload list. -/
def skelCells : List Cell → List Cell
  | [] => []
  | c :: t => skelCell c :: skelCells t
/-- Skeleton of one cell. -/
def skelCell : Cell → Cell
  | .child p => .child (skelP p)
  | .key k => .key k
end

/-- `BTreeIndex.insert(record)`: recursive insert from the root, then if the
root overflows (`used_space > size`), split it and install a fresh internal
root `[old_root, separator, new_sibling]`.  The source always returns
`True`. -/
def btInsert (C : BCtx) (t : TPage) (r : Rec) : TPage :=
  let t1 := insP C t r
  if usedSpace C t1 > C.S then
    .node [.child (splitP t1).1, .key (sepKeyFor t1 (splitP t1).2), .child (splitP t1).2]
  else t1

/-- `BTreeIndex.remove(key)`: recursive remove, then collapse the root when
it is internal with a payload of length 1 (replace it by `data[0]`).  If that
sole cell were a key the source would install an integer as root and crash
later; the model leaves the root unchanged in that (unreachable) case. -/
def btRemove (t : TPage) (k : Int) : TPage × Bool :=
  match removeP t k with
  | (TPage.node [Cell.child c], res2) => (c, res2)
  | res => res

/-- `BTreeIndex.search(key)`: delegate to the root. -/
def btSearch (t : TPage) (k : Int) : List Rec := searchP t k

/-- States of the B-tree driver reachable from a freshly constructed index
(root is an empty leaf) by any sequence of inserts and removes. -/
inductive BReach (C : BCtx) : TPage → Prop
  | init : BReach C (.leaf [])
  | ins (t : TPage) (r : Rec) : BReach C t → BReach C (btInsert C t r)
  | rem (t : TPage) (k : Int) : BReach C t → BReach C (btRemove t k).1

/-- A hash bucket (`HashPage`): a head record list plus an optional overflow
chain (`self._overflow`). -/
inductive HPage where
  | mk (data : List Rec) (overflow : Option HPage)

/-- Size model for the hash engine: page budget `S`, record size `szRec`
(`get_size(record)`), the constant `get_size([0, 0, 0])` used by
`_need_split` (`rec3`), the utilization threshold `U`, and the initial bucket
count `N0`.  All are fixed at construction, so the records-per-page constant
`S / rec3` is fixed over the engine's lifetime. -/
structure HCtx where
  S : Nat
  szRec : Rec → Nat
  rec3 : Nat
  U : ℚ
  N0 : Nat

/-- Occupied bytes of a head page's record list (`used_space` is local to the
head page only). -/
def usedH (C : HCtx) (d : List Rec) : Nat := (d.map C.szRec).sum

/-- `HashPage.search(key)`: scan the head page, return the first match as a
singleton, else recurse into the overflow chain. -/
def hSearch : HPage → Int → List Rec
  | .mk d none, k =>
    match d.find? (fun r => rkey r = k) with
    | some r => [r]
    | none => []
  | .mk d (some t), k =>
    match d.find? (fun r => rkey r = k) with
    | some r => [r]
    | none => hSearch t k

/-- `HashPage.insert(record)`: reject when the key is anywhere in the chain
(duplicate, `return False` with no mutation); else append to the head page if
it fits, else recurse into the overflow page, allocating it on demand.  On a
freshly allocated empty overflow page the source appends when the record
fits and otherwise recurses forever allocating overflow pages; the model
places the record in the fresh page — theorems that depend on this branch
assume `szRec r ≤ S`. -/
def hInsert (C : HCtx) : HPage → Rec → Bool × HPage
  | .mk d none, r =>
    if (hSearch (.mk d none) (rkey r)).isEmpty then
      if usedH C d + C.szRec r ≤ C.S then (true, .mk (d ++ [r]) none)
      else (true, .mk d (some (.mk [r] none)))
    else (false, .mk d none)
  | .mk d (some t), r =>
    if (hSearch (.mk d (some t)) (rkey r)).isEmpty then
      if usedH C d + C.szRec r ≤ C.S then (true, .mk (d ++ [r]) (some t))
      else
        let res := hInsert C t r
        (res.1, .mk d (some res.2))
    else (false, .mk d (some t))

/-- `HashPage.remove(key)`: drop the first match in the head page, else
recurse into the overflow chain. -/
def hRemove : HPage → Int → Bool × HPage
  | .mk d none, k =>
    if d.any (fun r => rkey r = k) then (true, .mk (d.eraseP (fun r => rkey r = k)) none)
    else (false, .mk d none)
  | .mk d (some t), k =>
    if d.any (fun r => rkey r = k) then (true, .mk (d.eraseP (fun r => rkey r = k)) (some t))
    else
      let res := hRemove t k
      (res.1, .mk d (some res.2))

/-- `HashPage.get_all_records()`: head records then overflow records. -/
def chainRecs : HPage → List Rec
  | .mk d none => d
  | .mk d (some t) => d ++ chainRecs t

/-- The empty bucket `HashPage(size)`. -/
def emptyHP : HPage := .mk [] none

/-- Linear Hashing engine state: level `d`, split pointer `sp`
(`_next_split`), bucket count, record count, split count, and the bucket
vector. -/
structure LHState where
  level : Nat
  nextSplit : Nat
  numBuckets : Nat
  numRecords : Int
  numSplits : Nat
  buckets : List HPage

/-- A freshly constructed `LinearHashIndex`: level 0, split pointer 0, `N0`
empty buckets. -/
def lhInit (C : HCtx) : LHState :=
  ⟨0, 0, C.N0, 0, 0, List.replicate C.N0 emptyHP⟩

/-- `_hash(key, level) = key % (2 ** level * initial_buckets)`; Python `%`
with a positive modulus is `Int.emod`, always in `[0, M)`. -/
def lhHash (C : HCtx) (key : Int) (lvl : Nat) : Int :=
  key % ((2 ^ lvl * C.N0 : Nat) : Int)

/-- `_get_bucket_index(key)`: `h_level(key)`, promoted to `h_(level+1)(key)`
when the result is below the split pointer. -/
def lhBucketIndex (C : HCtx) (lvl sp : Nat) (key : Int) : Int :=
  let i := lhHash C key lvl
  if i < (sp : Int) then lhHash C key (lvl + 1) else i

/-- `_need_split()`: load factor `(num_records / num_buckets) /
(size / get_size([0,0,0]))` at least the utilization threshold.  The source
computes with Python floats; the model uses exact rational arithmetic, which
is the arithmetic the spec states. -/
def lhNeedSplit (C : HCtx) (st : LHState) : Bool :=
  decide (C.U ≤ ((st.numRecords : ℚ) / (st.numBuckets : ℚ)) / ((C.S : ℚ) / (C.rec3 : ℚ)))

/-- `_split()`: drain the chain at `sp`, clear it, append a fresh bucket,
rehash every drained record with `h_(level+1)` sending index `old` back to
the old bucket and everything else to the new one, then advance `sp`,
rolling over into a new level at the end of a round.  The source appends the
new bucket before redistributing and fills both buckets in place; the final
state is the same. -/
def lhSplit (C : HCtx) (st : LHState) : LHState :=
  let M := 2 ^ st.level * C.N0
  let oldIdx := st.nextSplit
  let oldB := st.buckets.getD oldIdx emptyHP
  let redis := (chainRecs oldB).foldl
    (fun (pr : HPage × HPage) r =>
      if lhHash C (rkey r) (st.level + 1) = (oldIdx : Int) then ((hInsert C pr.1 r).2, pr.2)
      else (pr.1, (hInsert C pr.2 r).2))
    (emptyHP, emptyHP)
  let buckets' := (st.buckets.set oldIdx redis.1) ++ [redis.2]
  if st.nextSplit + 1 ≥ M then
    { level := st.level + 1, nextSplit := 0, numBuckets := st.numBuckets + 1,
      numRecords := st.numRecords, numSplits := st.numSplits + 1, buckets := buckets' }
  else
    { level := st.level, nextSplit := st.nextSplit + 1, numBuckets := st.numBuckets + 1,
      numRecords := st.numRecords, numSplits := st.numSplits + 1, buckets := buckets' }

/-- `LinearHashIndex.insert(record)`: address the bucket, attempt the chain
insert; on success bump `num_records` and split exactly once if the load
factor rule triggers; on duplicate rejection return `False` with nothing
changed. -/
def lhInsert (C : HCtx) (st : LHState) (r : Rec) : Bool × LHState :=
  let idx := (lhBucketIndex C st.level st.nextSplit (rkey r)).toNat
  let res := hInsert C (st.buckets.getD idx emptyHP) r
  if res.1 then
    let st1 := { st with buckets := st.buckets.set idx res.2, numRecords := st.numRecords + 1 }
    if lhNeedSplit C st1 then (true, lhSplit C st1) else (true, st1)
  else (false, st)

/-- `LinearHashIndex.remove(key)`: address the bucket, delegate to the chain,
decrement `num_records` on success. -/
def lhRemove (C : HCtx) (st : LHState) (k : Int) : Bool × LHState :=
  let idx := (lhBucketIndex C st.level st.nextSplit k).toNat
  let res := hRemove (st.buckets.getD idx emptyHP) k
  if res.1 then
    (true, { st with buckets := st.buckets.set idx res.2, numRecords := st.numRecords - 1 })
  else (false, st)

/-- `LinearHashIndex.search(key)`: address the bucket, delegate to the chain. -/
def lhSearch (C : HCtx) (st : LHState) (k : Int) : List Rec :=
  hSearch (st.buckets.getD (lhBucketIndex C st.level st.nextSplit k).toNat emptyHP) k

/-- All records stored across all buckets, in bucket order. -/
def lhAllRecs (st : LHState) : List Rec :=
  (st.buckets.map chainRecs).flatten

/-- Engine states reachable from a freshly constructed `LinearHashIndex` by
any sequence of inserts and removes. -/
inductive HReach (C : HCtx) : LHState → Prop
  | init : HReach C (lhInit C)
  | ins (st : LHState) (r : Rec) : HReach C st → HReach C (lhInsert C st r).2
  | rem (st : LHState) (k : Int) : HReach C st → HReach C (lhRemove C st k).2

/-! ### Binary search characterisation -/

/-- The least index whose element exceeds `key` in a non-decreasing list
(equivalently the length of the `≤ key` prefix): the position the spec calls
"first index with `key[p] > new_key`". -/
def ubIdx (L : List Int) (key : Int) : Nat :=
  (L.takeWhile (fun x => decide (x ≤ key))).length

/-- Characterisation of an upper-bound position in a key list. -/
def IsUB (L : List Int) (key : Int) (p : Nat) : Prop :=
  p ≤ L.length ∧ (∀ i, i < p → L.getD i 0 ≤ key) ∧
    ∀ i, p ≤ i → i < L.length → key < L.getD i 0

theorem sorted_getD_mono {L : List Int} (hs : L.Sorted (· ≤ ·)) {i j : Nat}
    (hij : i ≤ j) (hj : j < L.length) : L.getD i 0 ≤ L.getD j 0 := by
  have hi : i < L.length := lt_of_le_of_lt (Nat.lt_succ_iff.mp (Nat.lt_succ_of_le hij)) hj
  rw [List.getD_eq_getElem L 0 hi, List.getD_eq_getElem L 0 hj]
  exact hs.rel_get_of_le hij

theorem isUB_unique {L : List Int} {key : Int} {p q : Nat}
    (hp : IsUB L key p) (hq : IsUB L key q) : p = q := by
  by_contra hne
  rcases Nat.lt_or_ge p q with h | h
  · have h1 := hq.2.1 p h
    have h2 := hp.2.2 p le_rfl (lt_of_lt_of_le h hq.1)
    omega
  · rcases Nat.lt_or_ge q p with h' | h'
    · have h1 := hp.2.1 q h'
      have h2 := hq.2.2 q le_rfl (lt_of_lt_of_le h' hp.1)
      omega
    · omega

theorem bsFuel_isUB {L : List Int} {key : Int} (hs : L.Sorted (· ≤ ·)) :
    ∀ (fuel b e : Nat), e ≤ L.length → b ≤ e → e - b ≤ fuel →
    (∀ i, i < b → L.getD i 0 ≤ key) → (∀ i, e ≤ i → i < L.length → key < L.getD i 0) →
    IsUB L key (bsFuel L key fuel b e) := by
  intro fuel
  induction fuel with
  | zero =>
    intro b e he hbe hgap hlo hhi
    have hbeq : b = e := by omega
    subst hbeq
    exact ⟨le_trans le_rfl he, hlo, hhi⟩
  | succ n ih =>
    intro b e he hbe hgap hlo hhi
    rw [bsFuel]
    by_cases hlt : b < e
    · simp only [hlt, if_true]
      by_cases hkey : key < L.getD ((b + e) / 2) 0
      · simp only [hkey, if_true]
        refine ih b ((b + e) / 2) (by omega) (by omega) (by omega) hlo ?_
        intro i hi hiL
        exact lt_of_lt_of_le hkey (sorted_getD_mono hs hi hiL)
      · simp only [hkey, if_false]
        refine ih ((b + e) / 2 + 1) e he (by omega) (by omega) ?_ hhi
        intro i hi
        have : L.getD i 0 ≤ L.getD ((b + e) / 2) 0 :=
          sorted_getD_mono hs (by omega) (by omega)
        omega
    · simp only [hlt, if_false]
      have hbeq : b = e := by omega
      subst hbeq
      exact ⟨he, hlo, hhi⟩

theorem binSearch_isUB {L : List Int} {key : Int} (hs : L.Sorted (· ≤ ·)) :
    IsUB L key (binSearch L key) := by
  refine bsFuel_isUB hs L.length 0 L.length le_rfl (Nat.zero_le _) (by omega) ?_ ?_
  · intro i hi; omega
  · intro i hi hiL; omega

theorem isUB_ubIdx {L : List Int} {key : Int} (hs : L.Sorted (· ≤ ·)) :
    IsUB L key (ubIdx L key) := by
  induction L with
  | nil => exact ⟨by simp [ubIdx], by simp [ubIdx], by simp⟩
  | cons a t ih =>
    have hst : t.Sorted (· ≤ ·) := (List.sorted_cons.mp hs).2
    have hat : ∀ x ∈ t, a ≤ x := (List.sorted_cons.mp hs).1
    by_cases hak : a ≤ key
    · have hu : ubIdx (a :: t) key = ubIdx t key + 1 := by
        simp [ubIdx, List.takeWhile_cons, hak]
      rcases ih hst with ⟨h1, h2, h3⟩
      refine ⟨by simpa [hu] using Nat.succ_le_succ h1, ?_, ?_⟩
      · intro i hi
        cases i with
        | zero => simpa using hak
        | succ j =>
          have : j < ubIdx t key := by omega
          simpa using h2 j this
      · intro i hi hiL
        cases i with
        | zero => omega
        | succ j =>
          have hj1 : ubIdx t key ≤ j := by omega
          have hj2 : j < t.length := by simpa using hiL
          simpa using h3 j hj1 hj2
    · have hu : ubIdx (a :: t) key = 0 := by
        simp [ubIdx, List.takeWhile_cons, hak]
      refine ⟨by omega, by omega, ?_⟩
      intro i _ hiL
      have ha : key < a := by omega
      cases i with
      | zero => simpa using ha
      | succ j =>
        have hj : j < t.length := by simpa using hiL
        have h1 : a ≤ t.getD j 0 := by
          rw [List.getD_eq_getElem t 0 hj]
          exact hat t[j] (List.getElem_mem hj)
        have h2 : (a :: t).getD (j + 1) 0 = t.getD j 0 := by
          simp [List.getD_cons_succ]
        omega

theorem binSearch_eq_ubIdx {L : List Int} {key : Int} (hs : L.Sorted (· ≤ ·)) :
    binSearch L key = ubIdx L key :=
  isUB_unique (binSearch_isUB hs) (isUB_ubIdx hs)

theorem bsFuel_le {L : List Int} {key : Int} :
    ∀ (fuel b e : Nat), b ≤ e → bsFuel L key fuel b e ≤ e := by
  intro fuel
  induction fuel with
  | zero => intro b e h; simpa [bsFuel] using h
  | succ n ih =>
    intro b e h
    rw [bsFuel]
    by_cases hlt : b < e
    · simp only [hlt, if_true]
      by_cases hkey : key < L.getD ((b + e) / 2) 0
      · simp only [hkey, if_true]
        exact le_trans (ih b ((b + e) / 2) (by omega)) (by omega)
      · simp only [hkey, if_false]
        exact ih ((b + e) / 2 + 1) e (by omega)
    · simpa [hlt] using h

theorem binSearch_le_length (L : List Int) (key : Int) : binSearch L key ≤ L.length :=
  bsFuel_le L.length 0 L.length (Nat.zero_le _)

/-! ### Leaf insertion (claim C7 groundwork) -/

theorem take_length_takeWhile (p : α → Bool) (l : List α) :
    l.take (l.takeWhile p).length = l.takeWhile p := by
  induction l with
  | nil => simp
  | cons a t ih =>
    by_cases h : p a
    · simp [List.takeWhile_cons, h, ih]
    · simp [List.takeWhile_cons, h]

theorem drop_length_takeWhile (p : α → Bool) (l : List α) :
    l.drop (l.takeWhile p).length = l.dropWhile p := by
  induction l with
  | nil => simp
  | cons a t ih =>
    by_cases h : p a
    · simp [List.takeWhile_cons, List.dropWhile_cons, h, ih]
    · simp [List.takeWhile_cons, List.dropWhile_cons, h]

theorem dropWhile_gt_of_sorted {L : List Int} {k : Int} (hs : L.Sorted (· ≤ ·)) :
    ∀ y ∈ L.dropWhile (fun x => decide (x ≤ k)), k < y := by
  induction L with
  | nil => simp
  | cons a t ih =>
    intro y hy
    rcases List.sorted_cons.mp hs with ⟨hat, hst⟩
    by_cases h : a ≤ k
    · rw [List.dropWhile_cons] at hy
      simp only [h, decide_eq_true_eq, if_pos] at hy
      exact ih hst y hy
    · rw [List.dropWhile_cons] at hy
      have hd : decide (a ≤ k) = false := by simpa using h
      rw [hd] at hy
      simp only [Bool.false_eq_true, if_false] at hy
      rcases List.mem_cons.mp hy with rfl | hyt
      · omega
      · exact lt_of_lt_of_le (by omega : k < a) (hat y hyt)

/-- The decomposition of `LeafPage.insert` on a sorted leaf: the new record
lands between the `≤ key` prefix and the `> key` suffix. -/
theorem leafInsert_decomp {d : List Rec} (r : Rec)
    (hs : (leafKeys d).Sorted (· ≤ ·)) :
    leafInsert d r =
      d.takeWhile (fun x => decide (rkey x ≤ rkey r)) ++
        r :: d.dropWhile (fun x => decide (rkey x ≤ rkey r)) := by
  unfold leafInsert pyInsert
  rw [binSearch_eq_ubIdx hs]
  unfold ubIdx leafKeys
  rw [List.takeWhile_map, List.length_map]
  simp only [Function.comp_def]
  rw [take_length_takeWhile (fun x => decide (rkey x ≤ rkey r)) d,
      drop_length_takeWhile (fun x => decide (rkey x ≤ rkey r)) d]

theorem leafKeys_append (d₁ d₂ : List Rec) :
    leafKeys (d₁ ++ d₂) = leafKeys d₁ ++ leafKeys d₂ := by
  simp [leafKeys]

/-- Invariant L1 is preserved: inserting into a sorted leaf keeps the key
list non-decreasing. -/
theorem leafInsert_sorted {d : List Rec} (r : Rec)
    (hs : (leafKeys d).Sorted (· ≤ ·)) :
    (leafKeys (leafInsert d r)).Sorted (· ≤ ·) := by
  rw [leafInsert_decomp r hs]
  set p : Rec → Bool := fun x => decide (rkey x ≤ rkey r) with hp
  have hkeys : leafKeys (d.takeWhile p ++ r :: d.dropWhile p) =
      leafKeys (d.takeWhile p) ++ rkey r :: leafKeys (d.dropWhile p) := by
    simp [leafKeys]
  rw [hkeys]
  have hd : leafKeys (d.takeWhile p) ++ leafKeys (d.dropWhile p) = leafKeys d := by
    rw [← leafKeys_append, List.takeWhile_append_dropWhile]
  have hsplit : (leafKeys (d.takeWhile p) ++ leafKeys (d.dropWhile p)).Sorted (· ≤ ·) := by
    rw [hd]; exact hs
  rw [List.Sorted, List.pairwise_append] at hsplit ⊢
  rcases hsplit with ⟨h1, h2, h3⟩
  refine ⟨h1, ?_, ?_⟩
  · refine List.pairwise_cons.mpr ⟨?_, h2⟩
    intro b hb
    rcases List.mem_map.mp hb with ⟨y, hy, rfl⟩
    have : rkey y ∈ (leafKeys d).dropWhile (fun x => decide (x ≤ rkey r)) := by
      unfold leafKeys
      rw [List.dropWhile_map]
      exact List.mem_map_of_mem rkey hy
    exact le_of_lt (dropWhile_gt_of_sorted hs _ this)
  · intro a ha b hb
    rcases List.mem_cons.mp hb with rfl | hb'
    · rcases List.mem_map.mp ha with ⟨y, hy, rfl⟩
      have hpy := List.mem_takeWhile_imp hy
      rw [hp] at hpy
      simpa using hpy
    · exact h3 a ha b hb'

/-- Searching the inserted key in a sorted leaf returns the previous matches
followed by the new record: a duplicate lands after all equal keys. -/
theorem leafInsert_filter {d : List Rec} (r : Rec)
    (hs : (leafKeys d).Sorted (· ≤ ·)) :
    (leafInsert d r).filter (fun x => decide (rkey x = rkey r)) =
      d.filter (fun x => decide (rkey x = rkey r)) ++ [r] := by
  rw [leafInsert_decomp r hs]
  set p : Rec → Bool := fun x => decide (rkey x ≤ rkey r) with hp
  have hdw : (d.dropWhile p).filter (fun x => decide (rkey x = rkey r)) = [] := by
    rw [List.filter_eq_nil_iff]
    intro y hy
    have : rkey y ∈ (leafKeys d).dropWhile (fun x => decide (x ≤ rkey r)) := by
      unfold leafKeys
      rw [List.dropWhile_map]
      exact List.mem_map_of_mem rkey hy
    have := dropWhile_gt_of_sorted hs _ this
    simp only [decide_eq_true_eq]
    omega
  have hfd : d.filter (fun x => decide (rkey x = rkey r)) =
      (d.takeWhile p).filter (fun x => decide (rkey x = rkey r)) := by
    conv_lhs => rw [← List.takeWhile_append_dropWhile p d]
    rw [List.filter_append, hdw, List.append_nil]
  rw [List.filter_append, List.filter_cons]
  simp only [decide_eq_true_eq, if_pos rfl, hdw, hfd]
  simp

/-- C7: on a leaf with non-decreasing keys, `LeafPage.insert(r)` places `r` at
the first position `p` with `key[p] > r[0]` (everything before is `≤ r[0]`,
so a duplicate lands after all equal keys), returns success, and the key
sequence stays non-decreasing (invariant L1); moreover searching the new key
returns the old matches followed by `r`. -/
theorem claim_C7_leaf_insert (d : List Rec) (r : Rec)
    (hs : (leafKeys d).Sorted (· ≤ ·)) :
    IsUB (leafKeys d) (rkey r) (binSearch (leafKeys d) (rkey r)) ∧
    leafInsertB d r = (true, pyInsert (binSearch (leafKeys d) (rkey r)) r d) ∧
    (leafKeys (leafInsert d r)).Sorted (· ≤ ·) ∧
    (leafInsert d r).filter (fun x => decide (rkey x = rkey r)) =
      d.filter (fun x => decide (rkey x = rkey r)) ++ [r] :=
  ⟨binSearch_isUB hs, rfl, leafInsert_sorted r hs, leafInsert_filter r hs⟩

/-- Witness for C7 at a concrete sorted leaf with a duplicate key. -/
theorem claim_C7_witness :
    (leafKeys [[1,5],[3,6],[3,7],[4,1]]).Sorted (· ≤ ·) ∧
    (IsUB (leafKeys [[1,5],[3,6],[3,7],[4,1]]) (rkey [3,9])
        (binSearch (leafKeys [[1,5],[3,6],[3,7],[4,1]]) (rkey [3,9])) ∧
      leafInsertB [[1,5],[3,6],[3,7],[4,1]] [3,9] =
        (true, pyInsert (binSearch (leafKeys [[1,5],[3,6],[3,7],[4,1]]) (rkey [3,9]))
          [3,9] [[1,5],[3,6],[3,7],[4,1]]) ∧
      (leafKeys (leafInsert [[1,5],[3,6],[3,7],[4,1]] [3,9])).Sorted (· ≤ ·) ∧
      (leafInsert [[1,5],[3,6],[3,7],[4,1]] [3,9]).filter
          (fun x => decide (rkey x = rkey [3,9])) =
        [[1,5],[3,6],[3,7],[4,1]].filter (fun x => decide (rkey x = rkey [3,9])) ++ [[3,9]]) :=
  ⟨by decide, claim_C7_leaf_insert [[1,5],[3,6],[3,7],[4,1]] [3,9] (by decide)⟩

/-- C2 fails on the code: splitting the internal payload `[c0, 5, c1]`
(odd length, satisfying I1) retains the empty payload `[]` — even length and
no separator key — while the new sibling is the whole original node.  The
same even-length defect arises for every odd payload length: `splitMid`
always rounds to an even index, so the retained side always has even length. -/
theorem claim_C2_counterexample :
    [Cell.child (.leaf []), Cell.key 5, Cell.child (.leaf [])].length = 3 ∧
    Odd [Cell.child (.leaf []), Cell.key 5, Cell.child (.leaf [])].length ∧
    (splitNodeData [Cell.child (.leaf []), Cell.key 5, Cell.child (.leaf [])]).1 = [] ∧
    keyList (splitNodeData [Cell.child (.leaf []), Cell.key 5, Cell.child (.leaf [])]).1 = [] ∧
    ¬ Odd (splitNodeData [Cell.child (.leaf []), Cell.key 5, Cell.child (.leaf [])]).1.length :=
  ⟨rfl, by decide, rfl, rfl, by decide⟩

/-- The retained side of `NonLeafPage.split()` always has even payload length
(`splitMid` forces an even cut), contradicting the odd-length invariant I1
claimed for both halves. -/
theorem splitMid_even (n : Nat) : splitMid n % 2 = 0 := by
  unfold splitMid
  by_cases h : n / 2 % 2 = 1 <;> simp [h] <;> omega

theorem splitMid_le (n : Nat) : splitMid n ≤ n := by
  unfold splitMid
  by_cases h : n / 2 % 2 = 1 <;> simp [h] <;> omega

theorem splitNodeData_take_length (d : List Cell) :
    (splitNodeData d).1.length = splitMid d.length := by
  simp [splitNodeData, splitMid_le]

theorem splitNode_retained_even (d : List Cell) :
    (splitNodeData d).1.length % 2 = 0 := by
  rw [splitNodeData_take_length]; exact splitMid_even d.length

/-! ### Record and height bookkeeping over payload splits -/

theorem recsCells_append_even :
    ∀ (d₁ d₂ : List Cell), d₁.length % 2 = 0 →
      recsCells (d₁ ++ d₂) = recsCells d₁ ++ recsCells d₂
  | [], d₂, _ => by simp [recsCells]
  | [_], _, h => by simp at h
  | c :: c' :: t, d₂, h => by
    have ht : t.length % 2 = 0 := by
      simp only [List.length_cons] at h; omega
    simp only [List.cons_append, recsCells, List.append_eq]
    rw [recsCells_append_even t d₂ ht, List.append_assoc]

theorem heightCells_append_even :
    ∀ (d₁ d₂ : List Cell), d₁.length % 2 = 0 →
      heightCells (d₁ ++ d₂) = max (heightCells d₁) (heightCells d₂)
  | [], d₂, _ => by simp [heightCells]
  | [_], _, h => by simp at h
  | c :: c' :: t, d₂, h => by
    have ht : t.length % 2 = 0 := by
      simp only [List.length_cons] at h; omega
    simp only [List.cons_append, heightCells, List.append_eq]
    rw [heightCells_append_even t d₂ ht, Nat.max_assoc]

/-- P7 for `LeafPage.split`: the two halves concatenate back to the original
records. -/
theorem splitLeafData_append (d : List Rec) :
    (splitLeafData d).1 ++ (splitLeafData d).2 = d := by
  simp [splitLeafData]

/-- P7 for `NonLeafPage.split`: the records of the retained half and of the
new sibling concatenate to the original subtree records. -/
theorem splitNodeData_recs (d : List Cell) :
    recsP (.node (splitNodeData d).1) ++ recsP (.node (splitNodeData d).2) = recsP (.node d) := by
  have h := recsCells_append_even (splitNodeData d).1 (splitNodeData d).2 (splitNode_retained_even d)
  have hsplit : (splitNodeData d).1 ++ (splitNodeData d).2 = d := by
    simp [splitNodeData]
  rw [hsplit] at h
  simp only [recsP]
  exact h.symm

/-- The two halves of any `split()` carry exactly the original height between
them. -/
theorem splitP_heights (p : TPage) :
    max (heightP (splitP p).1) (heightP (splitP p).2) = heightP p := by
  cases p with
  | leaf d => simp [splitP, heightP]
  | node d =>
    have h := heightCells_append_even (splitNodeData d).1 (splitNodeData d).2
      (splitNode_retained_even d)
    have hsplit : (splitNodeData d).1 ++ (splitNodeData d).2 = d := by
      simp [splitNodeData]
    rw [hsplit] at h
    simp only [splitP, heightP]
    omega

mutual
/-- Recursive insert never changes the height of a page: child splits put
both halves at the same depth. -/
theorem insP_height (C : BCtx) : ∀ (t : TPage) (r : Rec), heightP (insP C t r) = heightP t
  | .leaf d, r => by simp [insP, heightP]
  | .node d, r => by
    simp only [insP, heightP]
    rw [insCells_height C d (2 * binSearch (keyList d) (rkey r)) r]
/-- Height bookkeeping for the payload walk of the recursive insert: the walk
inserts zero or two cells, preserving the stride-two pairing. -/
theorem insCells_height (C : BCtx) :
    ∀ (d : List Cell) (n : Nat) (r : Rec), heightCells (insCells C d n r) = heightCells d
  | [], _, _ => rfl
  | c :: t, 0, r => insHead_height C c t r
  | c :: [], n + 1, r => by simp [insCells]
  | c :: c' :: t', 0 + 1, r => by
    simp only [insCells]
    exact insHead_height_snd C c c' t' r
  | c :: c' :: t', m + 1 + 1, r => by
    simp only [insCells, heightCells]
    rw [insCells_height C t' m r]
/-- Height bookkeeping for the child insert and possible `_split_child` at an
even (child) position. -/
theorem insHead_height (C : BCtx) :
    ∀ (c : Cell) (t : List Cell) (r : Rec), heightCells (insHead C c t r) = heightCells (c :: t)
  | .key k, t, r => rfl
  | .child p, t, r => by
    simp only [insHead]
    by_cases hov : usedSpace C (insP C p r) > C.S
    · simp only [hov, if_true]
      have hsp := splitP_heights (insP C p r)
      have hih := insP_height C p r
      cases t with
      | nil =>
        simp only [heightCells, heightCell]
        omega
      | cons c' t' =>
        simp only [heightCells, heightCell]
        omega
    · simp only [hov, if_false]
      have hih := insP_height C p r
      cases t with
      | nil => simp [heightCells, heightCell, hih]
      | cons c' t' => simp [heightCells, heightCell, hih]
/-- Height bookkeeping when the modified cell sits at a skipped (odd)
position: its own height never enters the stride-two maximum. -/
theorem insHead_height_snd (C : BCtx) :
    ∀ (c c' : Cell) (t' : List Cell) (r : Rec),
      heightCells (c :: insHead C c' t' r) = heightCells (c :: c' :: t')
  | c, .key k, t', r => rfl
  | c, .child p, t', r => by
    simp only [insHead]
    by_cases hov : usedSpace C (insP C p r) > C.S
    · simp only [hov, if_true]
      cases t' with
      | nil => simp [heightCells, heightCell]
      | cons x xs => simp [heightCells, heightCell]
    · simp only [hov, if_false]
      cases t' with
      | nil => simp [heightCells]
      | cons x xs => simp [heightCells]
end

mutual
/-- `remove` touches only leaf contents: the skeleton (pages and separator
keys) is unchanged. -/
theorem removeP_skel : ∀ (t : TPage) (k : Int), skelP (removeP t k).1 = skelP t
  | .leaf d, k => rfl
  | .node d, k => by
    simp only [removeP, skelP]
    rw [removeCells_skel d (2 * binSearch (keyList d) k) k]
/-- Skeleton preservation along the payload walk of remove. -/
theorem removeCells_skel :
    ∀ (d : List Cell) (n : Nat) (k : Int), skelCells (removeCells d n k).1 = skelCells d
  | [], _, _ => rfl
  | c :: t, 0, k => removeHead_skel c t k
  | c :: t, n + 1, k => by
    simp only [removeCells, skelCells]
    rw [removeCells_skel t n k]
/-- Skeleton preservation at the descent cell. -/
theorem removeHead_skel :
    ∀ (c : Cell) (t : List Cell) (k : Int), skelCells (removeHead c t k).1 = skelCells (c :: t)
  | .key k0, t, k => rfl
  | .child p, t, k => by
    simp only [removeHead, skelCells, skelCell]
    rw [removeP_skel p k]
end

mutual
/-- Height only depends on the skeleton. -/
theorem heightP_skel : ∀ (t : TPage), heightP (skelP t) = heightP t
  | .leaf d => rfl
  | .node d => by
    simp only [skelP, heightP]
    rw [heightCells_skel d]
/-- Height of a skeletonised payload. -/
theorem heightCells_skel : ∀ (d : List Cell), heightCells (skelCells d) = heightCells d
  | [] => rfl
  | [c] => by
    simp only [skelCells, heightCells]
    exact heightCell_skel c
  | c :: c' :: t => by
    simp only [skelCells, heightCells]
    rw [heightCell_skel c, heightCells_skel t]
/-- Height of a skeletonised cell. -/
theorem heightCell_skel : ∀ (c : Cell), heightCell (skelCell c) = heightCell c
  | .key k => rfl
  | .child p => by
    simp only [skelCell, heightCell]
    exact heightP_skel p
end

theorem skelCells_length : ∀ (d : List Cell), (skelCells d).length = d.length
  | [] => rfl
  | c :: t => by simp only [skelCells, List.length_cons, skelCells_length t]

/-- Removal never changes the height. -/
theorem removeP_height (t : TPage) (k : Int) : heightP (removeP t k).1 = heightP t := by
  have h1 := heightP_skel (removeP t k).1
  have h2 := heightP_skel t
  rw [removeP_skel t k] at h1
  omega

/-- Driver-level insert: height grows by exactly one precisely when the root
overflows after the recursive insert, and is unchanged otherwise. -/
theorem btInsert_height (C : BCtx) (t : TPage) (r : Rec) :
    heightP (btInsert C t r) =
      if usedSpace C (insP C t r) > C.S then heightP t + 1 else heightP t := by
  unfold btInsert
  by_cases hov : usedSpace C (insP C t r) > C.S
  · simp only [hov, if_true]
    have hsp := splitP_heights (insP C t r)
    have hih := insP_height C t r
    simp only [heightP, heightCells, heightCell]
    omega
  · simp only [hov, if_false]
    exact insP_height C t r

/-- Driver-level remove never increases the height (the collapse branch can
only shrink it). -/
theorem btRemove_height (t : TPage) (k : Int) : heightP (btRemove t k).1 ≤ heightP t := by
  have hrem := removeP_height t k
  unfold btRemove
  split
  · next c res2 heq =>
    rw [show (removeP t k).1 = TPage.node [Cell.child c] by rw [heq]] at hrem
    have hh : heightP (TPage.node [Cell.child c]) = 1 + heightP c := by
      simp [heightP, heightCells, heightCell]
    simp only []
    omega
  · next => exact le_of_eq hrem

/-- The spec-side notion "first key of a page": first record key of a leaf,
first separator of an internal page. -/
def specFirstKey : TPage → Int
  | .leaf d => (leafKeys d).headI
  | .node l => (keyList l).headI

/-- The separator the source installs is always the new sibling's first key. -/
theorem sepKeyFor_eq (old sib : TPage) : sepKeyFor old sib = specFirstKey sib := by
  cases old <;> cases sib <;> rename_i d d2 <;>
    simp [sepKeyFor, specFirstKey, leafGetKey, leafKeys] <;>
    cases d2 <;> simp [rkey]

/-- C8: when the root overflows after an insert the driver installs the new
internal root `[old_root, separator, new_sibling]` with the separator equal
to the new sibling's first key and the height grows by exactly one; without
root overflow the height is unchanged; and remove never increases the
height. -/
theorem claim_C8_root_split (C : BCtx) (t : TPage) (r : Rec) (k : Int) :
    (usedSpace C (insP C t r) > C.S →
        btInsert C t r = .node [.child (splitP (insP C t r)).1,
          .key (specFirstKey (splitP (insP C t r)).2), .child (splitP (insP C t r)).2] ∧
        heightP (btInsert C t r) = heightP t + 1) ∧
    (¬ usedSpace C (insP C t r) > C.S →
        btInsert C t r = insP C t r ∧ heightP (btInsert C t r) = heightP t) ∧
    heightP (btRemove t k).1 ≤ heightP t := by
  refine ⟨?_, ?_, btRemove_height t k⟩
  · intro hov
    refine ⟨?_, ?_⟩
    · unfold btInsert
      simp only [hov, if_true]
      rw [sepKeyFor_eq]
    · rw [btInsert_height]
      simp [hov]
  · intro hov
    refine ⟨?_, ?_⟩
    · unfold btInsert
      simp [hov]
    · rw [btInsert_height]
      simp [hov]

/-- Witness for C8: a one-record insert into an empty-leaf root under a zero
page budget overflows the root and bumps the height from 1 to 2. -/
theorem claim_C8_witness :
    usedSpace ⟨0, fun _ => 1, 1, fun _ => 1⟩ (insP ⟨0, fun _ => 1, 1, fun _ => 1⟩ (.leaf []) [5])
        > (⟨0, fun _ => 1, 1, fun _ => 1⟩ : BCtx).S ∧
    heightP (btInsert ⟨0, fun _ => 1, 1, fun _ => 1⟩ (.leaf []) [5]) =
      heightP (.leaf ([] : List Rec)) + 1 :=
  ⟨by decide, ((claim_C8_root_split ⟨0, fun _ => 1, 1, fun _ => 1⟩ (.leaf []) [5] 0).1
    (by decide)).2⟩

/-! ### Root payload length bookkeeping (claim C10) -/

mutual
/-- The payload walk of insert leaves the payload length unchanged or grows
it by exactly two cells (one separator and one child). -/
theorem insCells_length (C : BCtx) :
    ∀ (d : List Cell) (n : Nat) (r : Rec),
      (insCells C d n r).length = d.length ∨ (insCells C d n r).length = d.length + 2
  | [], _, _ => Or.inl rfl
  | c :: t, 0, r => insHead_length C c t r
  | c :: t, n + 1, r => by
    simp only [insCells, List.length_cons]
    rcases insCells_length C t n r with h | h
    · exact Or.inl (by omega)
    · exact Or.inr (by omega)
/-- Length bookkeeping of the `_split_child` update. -/
theorem insHead_length (C : BCtx) :
    ∀ (c : Cell) (t : List Cell) (r : Rec),
      (insHead C c t r).length = (c :: t).length ∨
        (insHead C c t r).length = (c :: t).length + 2
  | .key k, t, r => Or.inl rfl
  | .child p, t, r => by
    simp only [insHead]
    by_cases hov : usedSpace C (insP C p r) > C.S
    · simp only [hov, if_true, List.length_cons]
      exact Or.inr trivial
    · simp only [hov, if_false, List.length_cons]
      exact Or.inl trivial
end

mutual
/-- Remove leaves every payload length unchanged. -/
theorem removeCells_length :
    ∀ (d : List Cell) (n : Nat) (k : Int), (removeCells d n k).1.length = d.length
  | [], _, _ => rfl
  | c :: t, 0, k => removeHead_length c t k
  | c :: t, n + 1, k => by
    simp only [removeCells, List.length_cons]
    rw [removeCells_length t n k]
/-- Length bookkeeping of remove at the descent cell. -/
theorem removeHead_length :
    ∀ (c : Cell) (t : List Cell) (k : Int), (removeHead c t k).1.length = (c :: t).length
  | .key k0, t, k => rfl
  | .child p, t, k => rfl
end

/-- The invariant of the driver's root: a leaf, or an internal page with an
odd payload of at least three cells (so never the lone-child shape that the
collapse branch of `BTreeIndex.remove` tests for). -/
def RootOk : TPage → Prop
  | .leaf _ => True
  | .node d => Odd d.length ∧ 3 ≤ d.length

theorem btInsert_rootOk (C : BCtx) (t : TPage) (r : Rec) (h : RootOk t) :
    RootOk (btInsert C t r) := by
  unfold btInsert
  by_cases hov : usedSpace C (insP C t r) > C.S
  · simp only [hov, if_true]
    exact ⟨⟨1, rfl⟩, by norm_num⟩
  · simp only [hov, if_false]
    cases t with
    | leaf d => exact trivial
    | node d =>
      rcases h with ⟨hodd, hlen⟩
      simp only [insP, RootOk]
      rcases insCells_length C d (2 * binSearch (keyList d) (rkey r)) r with hl | hl <;>
        rw [hl] <;> constructor <;> first
          | exact hodd
          | omega
          | · rcases hodd with ⟨m, hm⟩; exact ⟨m + 1, by omega⟩

theorem btRemove_noCollapse (t : TPage) (k : Int) (h : RootOk t) :
    btRemove t k = removeP t k ∧ RootOk (btRemove t k).1 := by
  cases t with
  | leaf d =>
    have : removeP (.leaf d) k = (.leaf (d.eraseP (fun r => rkey r = k)),
        d.any (fun r => rkey r = k)) := rfl
    unfold btRemove
    rw [this]
    exact ⟨rfl, trivial⟩
  | node d =>
    rcases h with ⟨hodd, hlen⟩
    have hshape : removeP (.node d) k =
        (.node (removeCells d (2 * binSearch (keyList d) k) k).1,
          (removeCells d (2 * binSearch (keyList d) k) k).2) := rfl
    have hlen' : (removeCells d (2 * binSearch (keyList d) k) k).1.length = d.length :=
      removeCells_length d _ k
    unfold btRemove
    rw [hshape]
    rcases hres : (removeCells d (2 * binSearch (keyList d) k) k).1 with _ | ⟨c0, t0⟩
    · rw [hres] at hlen'
      simp at hlen'
      omega
    · have hlen2 : (c0 :: t0).length = d.length := by rw [← hres]; exact hlen'
      cases c0 with
      | child c =>
        cases t0 with
        | nil => simp at hlen2; omega
        | cons y t1 =>
          refine ⟨rfl, ?_⟩
          show Odd (Cell.child c :: y :: t1).length ∧ 3 ≤ (Cell.child c :: y :: t1).length
          rw [show Cell.child c :: y :: t1 =
            (removeCells d (2 * binSearch (keyList d) k) k).1 from hres.symm, hlen']
          exact ⟨hodd, hlen⟩
      | key k0 =>
        cases t0 with
        | nil => simp at hlen2; omega
        | cons y t1 =>
          refine ⟨rfl, ?_⟩
          show Odd (Cell.key k0 :: y :: t1).length ∧ 3 ≤ (Cell.key k0 :: y :: t1).length
          rw [show Cell.key k0 :: y :: t1 =
            (removeCells d (2 * binSearch (keyList d) k) k).1 from hres.symm, hlen']
          exact ⟨hodd, hlen⟩

/-- The root invariant holds in every reachable driver state. -/
theorem breach_rootOk (C : BCtx) (t : TPage) (h : BReach C t) : RootOk t := by
  induction h with
  | init => exact trivial
  | ins t r _ ih => exact btInsert_rootOk C t r ih
  | rem t k _ ih => exact (btRemove_noCollapse t k ih).2

/-- C10 (amended): in every reachable driver state, remove preserves the
whole skeleton (it deletes records only from leaves, dropping no child and
no separator); an internal root always has odd payload length at least 3, so
the root-collapse branch of `BTreeIndex.remove` never executes and remove
never changes the height; and insert never decreases the height.  (The
unamended claim also asserted that no operation shrinks an internal node's
payload, which `split()` refutes — see the counterexample.) -/
theorem claim_C10_amended (C : BCtx) (t : TPage) (h : BReach C t) :
    (∀ k, skelP (removeP t k).1 = skelP t) ∧
    (∀ d, t = .node d → Odd d.length ∧ 3 ≤ d.length) ∧
    (∀ k, btRemove t k = removeP t k ∧ heightP (btRemove t k).1 = heightP t) ∧
    (∀ r, heightP t ≤ heightP (btInsert C t r)) := by
  have hroot := breach_rootOk C t h
  refine ⟨fun k => removeP_skel t k, ?_, ?_, ?_⟩
  · intro d hd
    rw [hd] at hroot
    exact hroot
  · intro k
    rcases btRemove_noCollapse t k hroot with ⟨heq, _⟩
    refine ⟨heq, ?_⟩
    rw [heq]
    exact removeP_height t k
  · intro r
    rw [btInsert_height]
    by_cases hov : usedSpace C (insP C t r) > C.S <;> simp [hov]

/-- Witness for C10 (amended) at the freshly constructed index. -/
theorem claim_C10_witness :
    BReach ⟨256, fun r => 24 + 8 * r.length, 24, fun _ => 28⟩ (.leaf []) ∧
    (∀ k, skelP (removeP (.leaf []) k).1 = skelP (.leaf [])) ∧
    (∀ d, (.leaf [] : TPage) = .node d → Odd d.length ∧ 3 ≤ d.length) ∧
    (∀ k, btRemove (.leaf []) k = removeP (.leaf []) k ∧
      heightP (btRemove (.leaf []) k).1 = heightP (.leaf [])) ∧
    (∀ r, heightP (.leaf []) ≤
      heightP (btInsert ⟨256, fun r => 24 + 8 * r.length, 24, fun _ => 28⟩ (.leaf []) r)) :=
  ⟨BReach.init,
    claim_C10_amended ⟨256, fun r => 24 + 8 * r.length, 24, fun _ => 28⟩ (.leaf []) BReach.init⟩

/-- The concrete size model used by the counterexamples: page budget 256
bytes and the `__sizeof__` values summed by `get_size` on 64-bit CPython —
a record tuple of `n` ints reports `24 + 8 n` bytes (pointers only, the
elements are not recursed into), a page instance 24 bytes, a small int key
28 bytes. -/
def Cx : BCtx := ⟨256, fun r => 24 + 8 * r.length, 24, fun _ => 28⟩

/-- Eighteen driver inserts (keys 10, 20, …, 180) producing a reachable
two-level tree whose internal root has payload length 9 (five leaf
children); the next insert adds a sixth child and overflows the root. -/
def c10recs : List Rec :=
  [[10,0],[20,0],[30,0],[40,0],[50,0],[60,0],[70,0],[80,0],[90,0],
   [100,0],[110,0],[120,0],[130,0],[140,0],[150,0],[160,0],[170,0],[180,0]]

/-- The driver state after the eighteen inserts of `c10recs`. -/
def c10state : TPage := c10recs.foldl (btInsert Cx) (.leaf [])

/-- Payload length of the root page. -/
def payloadLen : TPage → Nat
  | .leaf d => d.length
  | .node d => d.length

/-- Payload length of the first child of an internal root (the source's
`data[0]`, which after a root split is the retained old root). -/
def firstChildLen : TPage → Nat
  | .node (Cell.child p :: _) => payloadLen p
  | _ => 0

/-- C10 fails on the code as stated: the nineteenth insert `[190,0]` splits
a leaf (growing the internal root to 11 cells) and then splits the internal
root itself, which retains only `data[:4]` — the old root, reinstalled as
the new root's first child, has its payload shrunk from 9 cells before the
insert to 4 after it, so insert does decrease the payload length of an
existing internal node. -/
theorem claim_C10_counterexample :
    BReach Cx c10state ∧
    payloadLen c10state = 9 ∧
    payloadLen (btInsert Cx c10state [190,0]) = 3 ∧
    firstChildLen (btInsert Cx c10state [190,0]) = 4 := by
  refine ⟨?_, by decide, by decide, by decide⟩
  have h0 : BReach Cx (.leaf []) := BReach.init
  have h : ∀ (l : List Rec) (t : TPage), BReach Cx t → BReach Cx (l.foldl (btInsert Cx) t) := by
    intro l
    induction l with
    | nil => intro t ht; exact ht
    | cons r tl ih => intro t ht; exact ih (btInsert Cx t r) (BReach.ins t r ht)
  exact h c10recs (.leaf []) h0

/-- C1 fails on the code: (a) the seventh duplicate insert of key 5 splits
the leaf root, the equal keys straddle the separator, and `search` descends
only to the right of it, so `search(5)` returns just the four records of
the right leaf, missing the first three inserted ones; (b) after the
`[190,0]` insert splits the internal root, the retained half ends in a
separator with no child after it, so inserting `[71,1]` (whose key falls
between the retained half's last separator 70 and the root separator 100)
stores nothing and `search(71)` — right after `insert([71,1])` returned
success — finds nothing. -/
theorem claim_C1_counterexample :
    btSearch ([[5,1],[5,2],[5,3],[5,4],[5,5],[5,6],[5,7]].foldl (btInsert Cx) (.leaf [])) 5
        = [[5,4],[5,5],[5,6],[5,7]] ∧
    btSearch (btInsert Cx (btInsert Cx c10state [190,0]) [71,1]) (rkey [71,1]) = [] := by
  exact ⟨by decide, by decide⟩

/-! ### Hash chain lemmas -/

/-- A chain search comes up empty exactly when no stored record has the key. -/
theorem hSearch_eq_nil_iff : ∀ (p : HPage) (k : Int),
    hSearch p k = [] ↔ ∀ r ∈ chainRecs p, rkey r ≠ k
  | .mk d none, k => by
    simp only [hSearch, chainRecs]
    rcases hf : d.find? (fun r => decide (rkey r = k)) with _ | r
    · simp only [List.find?_eq_none] at hf
      simpa using fun r hr => by simpa using hf r hr
    · have hrk : rkey r = k := by
        have := List.find?_some hf
        simpa using this
      have hrm : r ∈ d := List.mem_of_find?_eq_some hf
      simp only []
      constructor
      · intro h; exact absurd h (by simp)
      · intro h; exact absurd hrk (h r hrm)
  | .mk d (some t), k => by
    simp only [hSearch, chainRecs]
    rcases hf : d.find? (fun r => decide (rkey r = k)) with _ | r
    · simp only [List.find?_eq_none] at hf
      rw [hSearch_eq_nil_iff t k]
      constructor
      · intro h r hr
        rcases List.mem_append.mp hr with h1 | h2
        · simpa using hf r h1
        · exact h r h2
      · intro h r hr
        exact h r (List.mem_append.mpr (Or.inr hr))
    · have hrk : rkey r = k := by
        have := List.find?_some hf
        simpa using this
      have hrm : r ∈ d := List.mem_of_find?_eq_some hf
      simp only []
      constructor
      · intro h; exact absurd h (by simp)
      · intro h; exact absurd hrk (h r (List.mem_append.mpr (Or.inl hrm)))

/-- Duplicate rejection: when the key is already in the chain, the insert
returns `False` and leaves the chain untouched. -/
theorem hInsert_dup (C : HCtx) (p : HPage) (r : Rec)
    (h : hSearch p (rkey r) ≠ []) : hInsert C p r = (false, p) := by
  have hie : (hSearch p (rkey r)).isEmpty = false := by
    rcases hs : hSearch p (rkey r) with _ | _
    · exact absurd hs h
    · rfl
  cases p with
  | mk d ov =>
    cases ov with
    | none => simp only [hInsert, hie, Bool.false_eq_true, if_false]
    | some t => simp only [hInsert, hie, Bool.false_eq_true, if_false]

/-- A successful chain insert returns `True` and the chain gains exactly the
new record (as a multiset; a record can land in the head page while earlier
ones sit in overflow pages). -/
theorem hInsert_new : ∀ (C : HCtx) (p : HPage) (r : Rec),
    hSearch p (rkey r) = [] →
    (hInsert C p r).1 = true ∧
      List.Perm (chainRecs (hInsert C p r).2) (chainRecs p ++ [r])
  | C, .mk d none, r => by
    intro h
    have hie : (hSearch (.mk d none) (rkey r)).isEmpty = true := by rw [h]; rfl
    by_cases hfit : usedH C d + C.szRec r ≤ C.S
    · simp only [hInsert, hie, if_true, hfit, chainRecs]
      exact ⟨trivial, List.Perm.refl _⟩
    · simp only [hInsert, hie, if_true, hfit, if_false, chainRecs]
      exact ⟨trivial, List.Perm.refl _⟩
  | C, .mk d (some t), r => by
    intro h
    have hie : (hSearch (.mk d (some t)) (rkey r)).isEmpty = true := by rw [h]; rfl
    have hsub : hSearch t (rkey r) = [] := by
      rw [hSearch_eq_nil_iff] at h ⊢
      intro x hx
      exact h x (by simp [chainRecs, hx])
    by_cases hfit : usedH C d + C.szRec r ≤ C.S
    · simp only [hInsert, hie, if_true, hfit, chainRecs]
      refine ⟨trivial, ?_⟩
      rw [List.append_assoc, List.append_assoc]
      exact List.Perm.append_left d List.perm_append_comm
    · simp only [hInsert, hie, if_true, hfit, if_false, chainRecs]
      rcases hInsert_new C t r hsub with ⟨hb, hperm⟩
      refine ⟨hb, ?_⟩
      rw [List.append_assoc]
      exact List.Perm.append_left d hperm

/-- Chain removal only drops records. -/
theorem hRemove_sublist : ∀ (p : HPage) (k : Int),
    List.Sublist (chainRecs (hRemove p k).2) (chainRecs p)
  | .mk d none, k => by
    by_cases hany : d.any (fun r => decide (rkey r = k))
    · simp only [hRemove, hany, if_true, chainRecs]
      exact List.eraseP_sublist d
    · simp only [hRemove, hany, if_false, chainRecs]
      exact List.Sublist.refl d
  | .mk d (some t), k => by
    by_cases hany : d.any (fun r => decide (rkey r = k))
    · simp only [hRemove, hany, if_true, chainRecs]
      exact (List.eraseP_sublist d).append (List.Sublist.refl _)
    · simp only [hRemove, hany, if_false, chainRecs]
      exact (List.Sublist.refl d).append (hRemove_sublist t k)

/-- C9: for every integer key (negative included) and level `d`, the hash
value `h_d(k) = k mod (2^d · N0)` lies in `[0, 2^d · N0)`, and when
`h_d(k) = old`, the next-level hash is either `old` or `old + 2^d · N0` —
the only two destinations a split can route a drained record to. -/
theorem lhHash_nonneg (C : HCtx) (k : Int) (d : Nat) (hN : 1 ≤ C.N0) :
    0 ≤ lhHash C k d := by
  have hM : (0 : Int) < ((2 ^ d * C.N0 : Nat) : Int) := by
    have : 0 < 2 ^ d * C.N0 := Nat.mul_pos (Nat.pos_pow_of_pos d (by omega)) (by omega)
    exact_mod_cast this
  exact Int.emod_nonneg k (by omega)

theorem lhHash_lt (C : HCtx) (k : Int) (d : Nat) (hN : 1 ≤ C.N0) :
    lhHash C k d < ((2 ^ d * C.N0 : Nat) : Int) := by
  have hM : (0 : Int) < ((2 ^ d * C.N0 : Nat) : Int) := by
    have : 0 < 2 ^ d * C.N0 := Nat.mul_pos (Nat.pos_pow_of_pos d (by omega)) (by omega)
    exact_mod_cast this
  exact Int.emod_lt_of_pos k hM

theorem lhHash_succ (C : HCtx) (k : Int) (d : Nat) (hN : 1 ≤ C.N0) :
    lhHash C k (d + 1) = lhHash C k d ∨
      lhHash C k (d + 1) = lhHash C k d + ((2 ^ d * C.N0 : Nat) : Int) := by
  have hM : (0 : Int) < ((2 ^ d * C.N0 : Nat) : Int) := by
    have : 0 < 2 ^ d * C.N0 := Nat.mul_pos (Nat.pos_pow_of_pos d (by omega)) (by omega)
    exact_mod_cast this
  set M : Int := ((2 ^ d * C.N0 : Nat) : Int) with hMdef
  have h2M : ((2 ^ (d + 1) * C.N0 : Nat) : Int) = 2 * M := by
    rw [hMdef]
    push_cast
    ring
  have hmm : k % (2 * M) % M = k % M := Int.emod_emod_of_dvd k ⟨2, by ring⟩
  have h0 : 0 ≤ k % (2 * M) := Int.emod_nonneg k (by omega)
  have h1 : k % (2 * M) < 2 * M := Int.emod_lt_of_pos k (by omega)
  rw [lhHash, lhHash, h2M, ← hMdef]
  by_cases hc : k % (2 * M) < M
  · left
    rw [← hmm]
    exact (Int.emod_eq_of_lt h0 hc).symm
  · right
    rw [← hmm]
    have hsub : (k % (2 * M) - M) % M = k % (2 * M) % M := Int.emod_sub_cancel _ _
    have hr : (k % (2 * M) - M) % M = k % (2 * M) - M :=
      Int.emod_eq_of_lt (by omega) (by omega)
    omega

theorem claim_C9_hash_values (C : HCtx) (k old : Int) (d : Nat) (hN : 1 ≤ C.N0) :
    (0 ≤ lhHash C k d ∧ lhHash C k d < ((2 ^ d * C.N0 : Nat) : Int)) ∧
    (lhHash C k d = old →
      lhHash C k (d + 1) = old ∨ lhHash C k (d + 1) = old + ((2 ^ d * C.N0 : Nat) : Int)) := by
  refine ⟨⟨lhHash_nonneg C k d hN, lhHash_lt C k d hN⟩, ?_⟩
  intro hold
  rw [← hold]
  exact lhHash_succ C k d hN

/-- Witness for C9 at a negative key: with `N0 = 4`, `d = 1`,
`h_1(-7) = 1` and `h_2(-7)` is `1` or `1 + 8`. -/
theorem claim_C9_witness :
    1 ≤ (⟨512, fun r => 28 * r.length, 84, 4/5, 4⟩ : HCtx).N0 ∧
    ((0 ≤ lhHash ⟨512, fun r => 28 * r.length, 84, 4/5, 4⟩ (-7) 1 ∧
        lhHash ⟨512, fun r => 28 * r.length, 84, 4/5, 4⟩ (-7) 1 < ((2 ^ 1 * 4 : Nat) : Int)) ∧
      (lhHash ⟨512, fun r => 28 * r.length, 84, 4/5, 4⟩ (-7) 1 = 1 →
        lhHash ⟨512, fun r => 28 * r.length, 84, 4/5, 4⟩ (-7) 2 = 1 ∨
        lhHash ⟨512, fun r => 28 * r.length, 84, 4/5, 4⟩ (-7) 2 = 1 + ((2 ^ 1 * 4 : Nat) : Int))) :=
  ⟨by decide, claim_C9_hash_values ⟨512, fun r => 28 * r.length, 84, 4/5, 4⟩ (-7) 1 1 (by decide)⟩

/-- The engine context used by the concrete hash witnesses: page budget 512,
`get_size(record) = 28 · len`, `get_size([0,0,0]) = 84`, utilization `4/5`,
four initial buckets — the defaults of the source. -/
def Ch : HCtx := ⟨512, fun r => 28 * r.length, 84, 4/5, 4⟩

/-- C6: inserting a record whose key is already stored anywhere in the
addressed bucket's chain returns `False` and leaves the whole engine state
unchanged — no record, counter, or bucket is modified and no split runs. -/
theorem claim_C6_duplicate_insert (C : HCtx) (st : LHState) (r : Rec)
    (hdup : hSearch (st.buckets.getD
        (lhBucketIndex C st.level st.nextSplit (rkey r)).toNat emptyHP) (rkey r) ≠ []) :
    lhInsert C st r = (false, st) := by
  have h := hInsert_dup C
    (st.buckets.getD (lhBucketIndex C st.level st.nextSplit (rkey r)).toNat emptyHP) r hdup
  simp only [lhInsert, h]
  simp

/-- The engine state after `insert([7,1])` into a fresh default engine:
record `(7,1)` sits in bucket `7 mod 4 = 3`, one record stored. -/
def st71 : LHState :=
  ⟨0, 0, 4, 1, 0, [emptyHP, emptyHP, emptyHP, HPage.mk [[7,1]] none]⟩

/-- Witness for C6, the spec's own scenario: with `(7,1)` stored,
`insert([7,2])` is rejected with the state unchanged, `search(7) = [(7,1)]`
and `num_records = 1`. -/
theorem claim_C6_witness :
    (hSearch (st71.buckets.getD
        (lhBucketIndex Ch st71.level st71.nextSplit (rkey [7,2])).toNat emptyHP)
        (rkey [7,2]) ≠ []) ∧
    lhInsert Ch st71 [7,2] = (false, st71) ∧
    lhSearch Ch st71 7 = [[7,1]] ∧
    st71.numRecords = 1 :=
  ⟨by decide, claim_C6_duplicate_insert Ch st71 [7,2] (by decide), by decide, by decide⟩

/-! ### The load-factor rule (claim C3) -/

/-- The bucket index `insert`/`remove`/`search` address for a record. -/
def lhIdxOf (C : HCtx) (st : LHState) (r : Rec) : Nat :=
  (lhBucketIndex C st.level st.nextSplit (rkey r)).toNat

/-- The chain-insert attempt of `LinearHashIndex.insert`. -/
def lhTryIns (C : HCtx) (st : LHState) (r : Rec) : Bool × HPage :=
  hInsert C (st.buckets.getD (lhIdxOf C st r) emptyHP) r

/-- The state right after a successful chain insert, before the load-factor
check: bucket updated, `num_records` incremented. -/
def lhPostIns (C : HCtx) (st : LHState) (r : Rec) : LHState :=
  { st with
    buckets := st.buckets.set (lhIdxOf C st r) (lhTryIns C st r).2
    numRecords := st.numRecords + 1 }

theorem lhInsert_eq (C : HCtx) (st : LHState) (r : Rec) :
    lhInsert C st r =
      if (lhTryIns C st r).1 then
        if lhNeedSplit C (lhPostIns C st r) then (true, lhSplit C (lhPostIns C st r))
        else (true, lhPostIns C st r)
      else (false, st) := by
  simp only [lhInsert, lhTryIns, lhPostIns, lhIdxOf]

/-- The source's load-factor test is exactly the spec's rule
`num_records / num_buckets ≥ U · C` with `C = S / get_size([0,0,0])`. -/
theorem lhNeedSplit_iff (C : HCtx) (st : LHState)
    (hB : 0 < st.numBuckets) (hS : 0 < C.S) (h3 : 0 < C.rec3) :
    lhNeedSplit C st = true ↔
      C.U * ((C.S : ℚ) / (C.rec3 : ℚ)) ≤ (st.numRecords : ℚ) / (st.numBuckets : ℚ) := by
  unfold lhNeedSplit
  rw [decide_eq_true_iff]
  have hq : (0 : ℚ) < (C.S : ℚ) / (C.rec3 : ℚ) :=
    div_pos (by exact_mod_cast hS) (by exact_mod_cast h3)
  exact le_div_iff hq

theorem lhSplit_stats (C : HCtx) (st : LHState) :
    (lhSplit C st).numSplits = st.numSplits + 1 ∧
    (lhSplit C st).numBuckets = st.numBuckets + 1 := by
  simp only [lhSplit]
  split <;> exact ⟨rfl, rfl⟩

theorem lhSplit_other_buckets (C : HCtx) (st : LHState) (j : Nat)
    (hj : j < st.buckets.length) (hne : j ≠ st.nextSplit) :
    (lhSplit C st).buckets.getD j emptyHP = st.buckets.getD j emptyHP := by
  have hlen : (st.buckets.set st.nextSplit
      ((chainRecs (st.buckets.getD st.nextSplit emptyHP)).foldl
        (fun (pr : HPage × HPage) r =>
          if lhHash C (rkey r) (st.level + 1) = (st.nextSplit : Int) then
            ((hInsert C pr.1 r).2, pr.2)
          else (pr.1, (hInsert C pr.2 r).2))
        (emptyHP, emptyHP)).1).length = st.buckets.length := by
    simp
  simp only [lhSplit]
  split <;>
  · simp only []
    rw [List.getD_append _ _ _ _ (by rw [hlen]; exact hj)]
    simp [List.getD_eq_getElem?_getD, List.getElem?_set_ne (Ne.symm hne)]

/-- C3: a split happens exactly after a successful (non-duplicate) insert
whose post-increment state satisfies `num_records / num_buckets ≥ U · C`,
with `C = S / get_size([0,0,0])` a constant of the engine; exactly the bucket
at `sp` is redistributed (all others are untouched, one new bucket appears);
at most one split happens per insert; a rejected insert changes nothing; and
remove never splits. -/
theorem claim_C3_split_rule (C : HCtx) (st : LHState) (r : Rec) (k : Int)
    (hB : 0 < st.numBuckets) (hS : 0 < C.S) (h3 : 0 < C.rec3) :
    ((lhTryIns C st r).1 = false → lhInsert C st r = (false, st)) ∧
    ((lhTryIns C st r).1 = true →
      ((C.U * ((C.S : ℚ) / (C.rec3 : ℚ)) ≤
          ((st.numRecords : ℚ) + 1) / (st.numBuckets : ℚ)) →
        lhInsert C st r = (true, lhSplit C (lhPostIns C st r)) ∧
        (lhInsert C st r).2.numSplits = st.numSplits + 1 ∧
        (lhInsert C st r).2.numBuckets = st.numBuckets + 1 ∧
        (∀ j, j < st.buckets.length → j ≠ st.nextSplit →
          (lhInsert C st r).2.buckets.getD j emptyHP =
            (lhPostIns C st r).buckets.getD j emptyHP)) ∧
      (¬ (C.U * ((C.S : ℚ) / (C.rec3 : ℚ)) ≤
          ((st.numRecords : ℚ) + 1) / (st.numBuckets : ℚ)) →
        lhInsert C st r = (true, lhPostIns C st r) ∧
        (lhInsert C st r).2.numSplits = st.numSplits)) ∧
    (lhInsert C st r).2.numSplits ≤ st.numSplits + 1 ∧
    (lhRemove C st k).2.numSplits = st.numSplits := by
  have hPB : (lhPostIns C st r).numBuckets = st.numBuckets := rfl
  have hPR : (lhPostIns C st r).numRecords = st.numRecords + 1 := rfl
  have hPS : (lhPostIns C st r).numSplits = st.numSplits := rfl
  have hPL : (lhPostIns C st r).buckets.length = st.buckets.length := by
    simp [lhPostIns]
  have hiff : lhNeedSplit C (lhPostIns C st r) = true ↔
      C.U * ((C.S : ℚ) / (C.rec3 : ℚ)) ≤
        ((st.numRecords : ℚ) + 1) / (st.numBuckets : ℚ) := by
    rw [lhNeedSplit_iff C (lhPostIns C st r) (by rw [hPB]; exact hB) hS h3, hPB, hPR]
    push_cast
    rfl
  have hrem : (lhRemove C st k).2.numSplits = st.numSplits := by
    simp only [lhRemove]
    split <;> rfl
  refine ⟨?_, ?_, ?_, hrem⟩
  · intro hfail
    rw [lhInsert_eq, hfail]
    rfl
  · intro hok
    constructor
    · intro hload
      have hns : lhNeedSplit C (lhPostIns C st r) = true := hiff.mpr hload
      have heq : lhInsert C st r = (true, lhSplit C (lhPostIns C st r)) := by
        rw [lhInsert_eq, hok, hns]
        rfl
      refine ⟨heq, ?_, ?_, ?_⟩
      · rw [heq]
        rw [show (true, lhSplit C (lhPostIns C st r)).2 = lhSplit C (lhPostIns C st r) from rfl]
        rw [(lhSplit_stats C (lhPostIns C st r)).1, hPS]
      · rw [heq]
        rw [show (true, lhSplit C (lhPostIns C st r)).2 = lhSplit C (lhPostIns C st r) from rfl]
        rw [(lhSplit_stats C (lhPostIns C st r)).2, hPB]
      · intro j hj hne
        rw [heq]
        exact lhSplit_other_buckets C (lhPostIns C st r) j (by rw [hPL]; exact hj)
          (by simpa [lhPostIns] using hne)
    · intro hload
      have hns : lhNeedSplit C (lhPostIns C st r) = false := by
        rcases h : lhNeedSplit C (lhPostIns C st r) with _ | _
        · rfl
        · exact absurd (hiff.mp h) hload
      have heq : lhInsert C st r = (true, lhPostIns C st r) := by
        rw [lhInsert_eq, hok, hns]
        rfl
      exact ⟨heq, by rw [heq]; exact hPS⟩
  · rcases h1 : (lhTryIns C st r).1 with _ | _
    · rw [lhInsert_eq, h1]
      simp
    · rcases h2 : lhNeedSplit C (lhPostIns C st r) with _ | _
      · rw [lhInsert_eq, h1, h2]
        simp [hPS]
      · rw [lhInsert_eq, h1, h2]
        simp [(lhSplit_stats C (lhPostIns C st r)).1, hPS]

/-- Witness for C3 at the concrete one-record state: positivity hypotheses
hold for the default engine and remove never bumps the split counter. -/
theorem claim_C3_witness :
    0 < st71.numBuckets ∧ 0 < Ch.S ∧ 0 < Ch.rec3 ∧
    (lhRemove Ch st71 0).2.numSplits = st71.numSplits :=
  ⟨by decide, by decide, by decide,
    (claim_C3_split_rule Ch st71 [9,9] 0 (by decide) (by decide) (by decide)).2.2.2⟩

/-! ### Split redistribution (claims C4 and C5) -/

/-- One redistribution step of `_split()`: rehash the record with
`h_(level+1)` and append it to the old or the new bucket accordingly. -/
def redisStep (C : HCtx) (lvl old : Nat) : HPage × HPage → Rec → HPage × HPage :=
  fun pr r =>
    if lhHash C (rkey r) (lvl + 1) = (old : Int) then ((hInsert C pr.1 r).2, pr.2)
    else (pr.1, (hInsert C pr.2 r).2)

theorem lhSplit_eq (C : HCtx) (st : LHState) :
    lhSplit C st =
      (if st.nextSplit + 1 ≥ 2 ^ st.level * C.N0 then
        { level := st.level + 1, nextSplit := 0, numBuckets := st.numBuckets + 1,
          numRecords := st.numRecords, numSplits := st.numSplits + 1,
          buckets := (st.buckets.set st.nextSplit
            ((chainRecs (st.buckets.getD st.nextSplit emptyHP)).foldl
              (redisStep C st.level st.nextSplit) (emptyHP, emptyHP)).1) ++
            [((chainRecs (st.buckets.getD st.nextSplit emptyHP)).foldl
              (redisStep C st.level st.nextSplit) (emptyHP, emptyHP)).2] }
      else
        { level := st.level, nextSplit := st.nextSplit + 1, numBuckets := st.numBuckets + 1,
          numRecords := st.numRecords, numSplits := st.numSplits + 1,
          buckets := (st.buckets.set st.nextSplit
            ((chainRecs (st.buckets.getD st.nextSplit emptyHP)).foldl
              (redisStep C st.level st.nextSplit) (emptyHP, emptyHP)).1) ++
            [((chainRecs (st.buckets.getD st.nextSplit emptyHP)).foldl
              (redisStep C st.level st.nextSplit) (emptyHP, emptyHP)).2] }) := by
  simp only [lhSplit, redisStep]
  rfl

/-- Redistribution sends each drained record into the bucket selected by its
`h_(level+1)` value, preserving the records as a multiset: the final old
chain holds the accumulated old chain plus the records rehashing to `old`,
and likewise for the new chain — provided the keys in play are pairwise
distinct (which is the case in reachable engines). -/
theorem redis_spec (C : HCtx) (lvl old : Nat) :
    ∀ (recs : List Rec) (ob nb : HPage),
      ((chainRecs ob).map rkey).Nodup →
      ((chainRecs nb).map rkey).Nodup →
      (recs.map rkey).Nodup →
      (∀ x ∈ recs, rkey x ∉ (chainRecs ob).map rkey) →
      (∀ x ∈ recs, rkey x ∉ (chainRecs nb).map rkey) →
      List.Perm (chainRecs (recs.foldl (redisStep C lvl old) (ob, nb)).1)
        (chainRecs ob ++
          recs.filter (fun r => decide (lhHash C (rkey r) (lvl + 1) = (old : Int)))) ∧
      List.Perm (chainRecs (recs.foldl (redisStep C lvl old) (ob, nb)).2)
        (chainRecs nb ++
          recs.filter (fun r => !decide (lhHash C (rkey r) (lvl + 1) = (old : Int))))
  | [], ob, nb => by
    intro hob hnb hrec hdo hdn
    simp
  | r :: rest, ob, nb => by
    intro hob hnb hrec hdo hdn
    have hkr : rkey r ∉ (rest.map rkey) := by
      simp only [List.map_cons, List.nodup_cons] at hrec
      exact hrec.1
    have hrest : (rest.map rkey).Nodup := by
      simp only [List.map_cons, List.nodup_cons] at hrec
      exact hrec.2
    by_cases hh : lhHash C (rkey r) (lvl + 1) = (old : Int)
    · have hnodup : hSearch ob (rkey r) = [] := by
        rw [hSearch_eq_nil_iff]
        intro x hx hexk
        exact (hdo r (List.mem_cons_self r rest)) (hexk ▸ List.mem_map_of_mem rkey hx)
      rcases hInsert_new C ob r hnodup with ⟨_, hperm⟩
      have hob' : ((chainRecs (hInsert C ob r).2).map rkey).Nodup := by
        refine (hperm.map rkey).nodup_iff.mpr ?_
        rw [List.map_append]
        rw [List.nodup_append]
        refine ⟨hob, by simp, ?_⟩
        intro a ha hb
        simp only [List.map_cons, List.map_nil, List.mem_cons, List.not_mem_nil, or_false] at hb
        exact (hdo r (List.mem_cons_self r rest)) (hb ▸ ha)
      have hdo' : ∀ x ∈ rest, rkey x ∉ (chainRecs (hInsert C ob r).2).map rkey := by
        intro x hx hmem
        have := (hperm.map rkey).mem_iff.mp hmem
        rw [List.map_append, List.mem_append] at this
        rcases this with h1 | h2
        · exact (hdo x (List.mem_cons_of_mem r hx)) h1
        · simp only [List.map_cons, List.map_nil, List.mem_cons, List.not_mem_nil,
            or_false] at h2
          exact hkr (h2 ▸ List.mem_map_of_mem rkey hx)
      have hdn' : ∀ x ∈ rest, rkey x ∉ (chainRecs nb).map rkey :=
        fun x hx => hdn x (List.mem_cons_of_mem r hx)
      rcases redis_spec C lvl old rest (hInsert C ob r).2 nb hob' hnb hrest hdo' hdn' with
        ⟨ih1, ih2⟩
      constructor
      · have hstep : (r :: rest).foldl (redisStep C lvl old) (ob, nb) =
            rest.foldl (redisStep C lvl old) ((hInsert C ob r).2, nb) := by
          simp [redisStep, hh]
        rw [hstep, List.filter_cons_of_pos (by simpa using hh)]
        refine ih1.trans ?_
        refine (hperm.append_right _).trans ?_
        rw [List.append_assoc]
        exact List.Perm.refl _
      · have hstep : (r :: rest).foldl (redisStep C lvl old) (ob, nb) =
            rest.foldl (redisStep C lvl old) ((hInsert C ob r).2, nb) := by
          simp [redisStep, hh]
        rw [hstep, List.filter_cons_of_neg (by simpa using hh)]
        exact ih2
    · have hnodup : hSearch nb (rkey r) = [] := by
        rw [hSearch_eq_nil_iff]
        intro x hx hexk
        exact (hdn r (List.mem_cons_self r rest)) (hexk ▸ List.mem_map_of_mem rkey hx)
      rcases hInsert_new C nb r hnodup with ⟨_, hperm⟩
      have hnb' : ((chainRecs (hInsert C nb r).2).map rkey).Nodup := by
        refine (hperm.map rkey).nodup_iff.mpr ?_
        rw [List.map_append]
        rw [List.nodup_append]
        refine ⟨hnb, by simp, ?_⟩
        intro a ha hb
        simp only [List.map_cons, List.map_nil, List.mem_cons, List.not_mem_nil, or_false] at hb
        exact (hdn r (List.mem_cons_self r rest)) (hb ▸ ha)
      have hdn' : ∀ x ∈ rest, rkey x ∉ (chainRecs (hInsert C nb r).2).map rkey := by
        intro x hx hmem
        have := (hperm.map rkey).mem_iff.mp hmem
        rw [List.map_append, List.mem_append] at this
        rcases this with h1 | h2
        · exact (hdn x (List.mem_cons_of_mem r hx)) h1
        · simp only [List.map_cons, List.map_nil, List.mem_cons, List.not_mem_nil,
            or_false] at h2
          exact hkr (h2 ▸ List.mem_map_of_mem rkey hx)
      have hdo' : ∀ x ∈ rest, rkey x ∉ (chainRecs ob).map rkey :=
        fun x hx => hdo x (List.mem_cons_of_mem r hx)
      rcases redis_spec C lvl old rest ob (hInsert C nb r).2 hob hnb' hrest hdo' hdn' with
        ⟨ih1, ih2⟩
      constructor
      · have hstep : (r :: rest).foldl (redisStep C lvl old) (ob, nb) =
            rest.foldl (redisStep C lvl old) (ob, (hInsert C nb r).2) := by
          simp [redisStep, hh]
        rw [hstep, List.filter_cons_of_neg (by simpa using hh)]
        exact ih1
      · have hstep : (r :: rest).foldl (redisStep C lvl old) (ob, nb) =
            rest.foldl (redisStep C lvl old) (ob, (hInsert C nb r).2) := by
          simp [redisStep, hh]
        rw [hstep, List.filter_cons_of_pos (by simpa using hh)]
        refine ih2.trans ?_
        refine (hperm.append_right _).trans ?_
        rw [List.append_assoc]
        exact List.Perm.refl _

/-- `_split()` preserves the multiset of all stored records, provided the
drained chain has pairwise-distinct keys (hash engines reject duplicates, so
this holds in every reachable state). -/
theorem lhSplit_allRecs (C : HCtx) (st : LHState)
    (hnd : ((chainRecs (st.buckets.getD st.nextSplit emptyHP)).map rkey).Nodup) :
    List.Perm (lhAllRecs (lhSplit C st)) (lhAllRecs st) := by
  set recs := chainRecs (st.buckets.getD st.nextSplit emptyHP) with hrecs
  set redis := recs.foldl (redisStep C st.level st.nextSplit) (emptyHP, emptyHP) with hredis
  have hspec := redis_spec C st.level st.nextSplit recs emptyHP emptyHP
    (by simp [chainRecs, emptyHP]) (by simp [chainRecs, emptyHP]) hnd
    (by simp [chainRecs, emptyHP]) (by simp [chainRecs, emptyHP])
  rw [← hredis] at hspec
  rcases hspec with ⟨h1, h2⟩
  rw [show chainRecs emptyHP = [] from rfl, List.nil_append] at h1 h2
  have hpair : List.Perm (chainRecs redis.1 ++ chainRecs redis.2) recs :=
    (h1.append h2).trans (List.filter_append_perm _ recs)
  have hbuckets : (lhSplit C st).buckets =
      st.buckets.set st.nextSplit redis.1 ++ [redis.2] := by
    rw [lhSplit_eq]
    split <;> simp only [← hrecs, ← hredis]
  unfold lhAllRecs
  rw [hbuckets]
  by_cases hlt : st.nextSplit < st.buckets.length
  · have hset : st.buckets.set st.nextSplit redis.1 =
        st.buckets.take st.nextSplit ++ redis.1 :: st.buckets.drop (st.nextSplit + 1) :=
      List.set_eq_take_cons_drop redis.1 hlt
    have hgetd : recs = chainRecs st.buckets[st.nextSplit] := by
      rw [hrecs, List.getD_eq_getElem _ _ hlt]
    have hdecomp : st.buckets = st.buckets.take st.nextSplit ++
        st.buckets[st.nextSplit] :: st.buckets.drop (st.nextSplit + 1) := by
      rw [List.getElem_cons_drop]
      exact (List.take_append_drop _ _).symm
    rw [hset]
    conv_rhs => rw [hdecomp]
    simp only [List.map_append, List.flatten_append, List.map_cons, List.flatten_cons,
      List.map_nil, List.flatten_nil, List.append_nil, List.append_assoc]
    refine List.Perm.append_left _ ?_
    have hpair2 : List.Perm (chainRecs redis.1 ++ chainRecs redis.2)
        (chainRecs st.buckets[st.nextSplit]) := by
      have h := hpair
      rw [hgetd] at h
      exact h
    have hstep1 : List.Perm
        (chainRecs redis.1 ++
          (((st.buckets.drop (st.nextSplit + 1)).map chainRecs).flatten ++ chainRecs redis.2))
        ((chainRecs redis.1 ++ chainRecs redis.2) ++
          ((st.buckets.drop (st.nextSplit + 1)).map chainRecs).flatten) := by
      rw [List.append_assoc]
      exact List.Perm.append_left _ List.perm_append_comm
    exact hstep1.trans (hpair2.append_right _)
  · have hset : st.buckets.set st.nextSplit redis.1 = st.buckets :=
      List.set_eq_of_length_le (by omega)
    have hrecs0 : recs = [] := by
      rw [hrecs, List.getD_eq_default]
      · rfl
      · omega
    have hred : redis = (emptyHP, emptyHP) := by rw [hredis, hrecs0]; rfl
    rw [hset, hred]
    simp [chainRecs, emptyHP]

/-- C5: every split preserves the stored records — a leaf split concatenates
back to the original record list, an internal split's two halves carry
exactly the original subtree records, and a hash `_split()` permutes but
never loses or duplicates the records stored across all buckets (given the
drained chain's keys are pairwise distinct, as duplicate rejection
guarantees in reachable engines). -/
theorem claim_C5_split_preserves (C : HCtx) (d : List Rec) (l : List Cell) (st : LHState)
    (hnd : ((chainRecs (st.buckets.getD st.nextSplit emptyHP)).map rkey).Nodup) :
    (splitLeafData d).1 ++ (splitLeafData d).2 = d ∧
    recsP (.node (splitNodeData l).1) ++ recsP (.node (splitNodeData l).2) = recsP (.node l) ∧
    List.Perm (lhAllRecs (lhSplit C st)) (lhAllRecs st) :=
  ⟨splitLeafData_append d, splitNodeData_recs l, lhSplit_allRecs C st hnd⟩

/-- Witness for C5 at concrete pages and the one-record engine state. -/
theorem claim_C5_witness :
    ((chainRecs (st71.buckets.getD st71.nextSplit emptyHP)).map rkey).Nodup ∧
    ((splitLeafData [[1,2],[3,4],[5,6]]).1 ++ (splitLeafData [[1,2],[3,4],[5,6]]).2 =
        [[1,2],[3,4],[5,6]] ∧
      recsP (.node (splitNodeData
          [Cell.child (.leaf [[9,9]]), Cell.key 10, Cell.child (.leaf [[10,1]])]).1) ++
        recsP (.node (splitNodeData
          [Cell.child (.leaf [[9,9]]), Cell.key 10, Cell.child (.leaf [[10,1]])]).2) =
        recsP (.node [Cell.child (.leaf [[9,9]]), Cell.key 10, Cell.child (.leaf [[10,1]])]) ∧
      List.Perm (lhAllRecs (lhSplit Ch st71)) (lhAllRecs st71)) :=
  ⟨by decide, claim_C5_split_preserves Ch [[1,2],[3,4],[5,6]]
    [Cell.child (.leaf [[9,9]]), Cell.key 10, Cell.child (.leaf [[10,1]])] st71 (by decide)⟩

/-! ### The addressing invariant (claim C4) -/

/-- Composite addressing stays in `[0, 2^level·N0 + sp)`: every key addresses
an existing bucket. -/
theorem lhBucketIndex_range (C : HCtx) (hN : 1 ≤ C.N0) (lvl sp : Nat)
    (hsp : sp ≤ 2 ^ lvl * C.N0) (k : Int) :
    0 ≤ lhBucketIndex C lvl sp k ∧
      lhBucketIndex C lvl sp k < ((2 ^ lvl * C.N0 + sp : Nat) : Int) := by
  have h0 := lhHash_nonneg C k lvl hN
  have h1 := lhHash_lt C k lvl hN
  have h0' := lhHash_nonneg C k (lvl + 1) hN
  have hs := lhHash_succ C k lvl hN
  unfold lhBucketIndex
  by_cases hc : lhHash C k lvl < (sp : Int)
  · rw [if_pos hc]
    omega
  · rw [if_neg hc]
    omega

/-- Where the composite rule sends a key after the split pointer advances
from `sp` to `sp + 1` (no rollover), given where it was sent before:
untouched addresses are preserved, and keys that rehash to `sp` or to
`sp + 2^lvl·N0` are found exactly there. -/
theorem lhBucketIndex_advance (C : HCtx) (hN : 1 ≤ C.N0) (lvl sp : Nat)
    (hsp : sp < 2 ^ lvl * C.N0) (k : Int) :
    (∀ i : Int, lhBucketIndex C lvl sp k = i → i ≠ (sp : Int) →
      lhBucketIndex C lvl (sp + 1) k = i) ∧
    (lhHash C k (lvl + 1) = (sp : Int) → lhBucketIndex C lvl (sp + 1) k = (sp : Int)) ∧
    (lhHash C k (lvl + 1) = (sp : Int) + ((2 ^ lvl * C.N0 : Nat) : Int) →
      lhBucketIndex C lvl (sp + 1) k = (sp : Int) + ((2 ^ lvl * C.N0 : Nat) : Int)) ∧
    (lhBucketIndex C lvl sp k = (sp : Int) →
      lhHash C k (lvl + 1) = (sp : Int) ∨
      lhHash C k (lvl + 1) = (sp : Int) + ((2 ^ lvl * C.N0 : Nat) : Int)) := by
  have h0 := lhHash_nonneg C k lvl hN
  have h1 := lhHash_lt C k lvl hN
  have h0' := lhHash_nonneg C k (lvl + 1) hN
  have hs := lhHash_succ C k lvl hN
  unfold lhBucketIndex
  refine ⟨?_, ?_, ?_, ?_⟩
  · intro i hi hne
    by_cases hc : lhHash C k lvl < (sp : Int)
    · rw [if_pos hc] at hi
      rw [if_pos (by omega)]
      exact hi
    · rw [if_neg hc] at hi
      have hgt : (sp : Int) < lhHash C k lvl := by
        rcases (not_lt.mp hc).lt_or_eq with h | h
        · exact h
        · exfalso
          apply hne
          rw [← hi, ← h]
      rw [if_neg (by omega)]
      exact hi
  · intro hh
    rw [if_pos (by omega)]
    exact hh
  · intro hh
    rw [if_pos (by omega)]
    exact hh
  · intro hi
    by_cases hc : lhHash C k lvl < (sp : Int)
    · rw [if_pos hc] at hi
      omega
    · rw [if_neg hc] at hi
      omega

/-- Where the composite rule sends a key after a rollover (`sp + 1 = M`,
level becomes `lvl + 1`, pointer resets to 0): the address is simply
`h_(lvl+1)`, which preserves untouched addresses and routes rehashed keys to
their redistribution target. -/
theorem lhBucketIndex_rollover (C : HCtx) (hN : 1 ≤ C.N0) (lvl sp : Nat)
    (hsp : sp + 1 = 2 ^ lvl * C.N0) (k : Int) :
    lhBucketIndex C (lvl + 1) 0 k = lhHash C k (lvl + 1) ∧
    (∀ i : Int, lhBucketIndex C lvl sp k = i → i ≠ (sp : Int) →
      lhHash C k (lvl + 1) = i) := by
  have h0 := lhHash_nonneg C k lvl hN
  have h1 := lhHash_lt C k lvl hN
  have h0' := lhHash_nonneg C k (lvl + 1) hN
  have hs := lhHash_succ C k lvl hN
  constructor
  · unfold lhBucketIndex
    rw [if_neg (by omega)]
  · intro i hi hne
    unfold lhBucketIndex at hi
    by_cases hc : lhHash C k lvl < (sp : Int)
    · rw [if_pos hc] at hi
      exact hi
    · rw [if_neg hc] at hi
      exfalso
      apply hne
      omega

/-- The engine invariant: the bucket count tracks `2^level · N0 + sp`, the
split pointer stays inside the current round, the vector has exactly
`num_buckets` chains, every chain has pairwise-distinct keys, and every
stored record sits in the chain that the composite addressing rule computes
for its key. -/
def GoodLH (C : HCtx) (st : LHState) : Prop :=
  st.numBuckets = 2 ^ st.level * C.N0 + st.nextSplit ∧
  st.nextSplit < 2 ^ st.level * C.N0 ∧
  st.buckets.length = st.numBuckets ∧
  ∀ i, i < st.buckets.length →
    ((chainRecs (st.buckets.getD i emptyHP)).map rkey).Nodup ∧
    ∀ r ∈ chainRecs (st.buckets.getD i emptyHP),
      lhBucketIndex C st.level st.nextSplit (rkey r) = (i : Int)

/-- A chain insert can only return `True` when the key was absent. -/
theorem hInsert_true_imp (C : HCtx) (p : HPage) (r : Rec)
    (h : (hInsert C p r).1 = true) : hSearch p (rkey r) = [] := by
  by_contra hne
  rw [hInsert_dup C p r hne] at h
  exact Bool.false_ne_true h

theorem getD_set_self {l : List α} {i : Nat} (a d : α) (h : i < l.length) :
    (l.set i a).getD i d = a := by
  simp [List.getD_eq_getElem?_getD, List.getElem?_set_self, h]

theorem getD_set_ne {l : List α} {i j : Nat} (a d : α) (h : i ≠ j) :
    (l.set i a).getD j d = l.getD j d := by
  simp [List.getD_eq_getElem?_getD, List.getElem?_set_ne h]

theorem getD_replicate {n i : Nat} (a d : α) (h : i < n) :
    (List.replicate n a).getD i d = a := by
  simp [List.getD_eq_getElem?_getD, List.getElem?_replicate, h]

/-- `_split()` preserves the engine invariant: redistribution routes each
drained record to the address the composite rule computes for it after the
split pointer advances, and every untouched bucket keeps its address. -/
theorem lhSplit_good (C : HCtx) (hN : 1 ≤ C.N0) (st : LHState) (hG : GoodLH C st) :
    GoodLH C (lhSplit C st) := by
  obtain ⟨hnum, hsp, hlen, hinv⟩ := hG
  have hsplt : st.nextSplit < st.buckets.length := by omega
  set recs := chainRecs (st.buckets.getD st.nextSplit emptyHP) with hrecs
  set redis := recs.foldl (redisStep C st.level st.nextSplit) (emptyHP, emptyHP) with hredis
  have hnd : (recs.map rkey).Nodup := (hinv st.nextSplit hsplt).1
  have holdaddr : ∀ r ∈ recs,
      lhBucketIndex C st.level st.nextSplit (rkey r) = (st.nextSplit : Int) :=
    (hinv st.nextSplit hsplt).2
  have hspec := redis_spec C st.level st.nextSplit recs emptyHP emptyHP
    (by simp [chainRecs, emptyHP]) (by simp [chainRecs, emptyHP]) hnd
    (by simp [chainRecs, emptyHP]) (by simp [chainRecs, emptyHP])
  rw [← hredis] at hspec
  rcases hspec with ⟨h1, h2⟩
  rw [show chainRecs emptyHP = [] from rfl, List.nil_append] at h1 h2
  have hm1 : ∀ r ∈ chainRecs redis.1,
      r ∈ recs ∧ lhHash C (rkey r) (st.level + 1) = (st.nextSplit : Int) := by
    intro r hr
    have := List.mem_filter.mp (h1.mem_iff.mp hr)
    exact ⟨this.1, by simpa using this.2⟩
  have hm2 : ∀ r ∈ chainRecs redis.2,
      r ∈ recs ∧ ¬ lhHash C (rkey r) (st.level + 1) = (st.nextSplit : Int) := by
    intro r hr
    have := List.mem_filter.mp (h2.mem_iff.mp hr)
    exact ⟨this.1, by simpa using this.2⟩
  have hnd1 : ((chainRecs redis.1).map rkey).Nodup :=
    (h1.map rkey).nodup_iff.mpr (((List.filter_sublist recs).map rkey).nodup hnd)
  have hnd2 : ((chainRecs redis.2).map rkey).Nodup :=
    (h2.map rkey).nodup_iff.mpr (((List.filter_sublist recs).map rkey).nodup hnd)
  have hbuckets : (lhSplit C st).buckets =
      st.buckets.set st.nextSplit redis.1 ++ [redis.2] := by
    rw [lhSplit_eq]
    split <;> simp only [← hrecs, ← hredis]
  have hsetlen : (st.buckets.set st.nextSplit redis.1).length = st.buckets.length := by
    simp
  have hblen : (lhSplit C st).buckets.length = st.buckets.length + 1 := by
    rw [hbuckets]
    simp
  have hchain_ne : ∀ i, i < st.buckets.length → i ≠ st.nextSplit →
      (lhSplit C st).buckets.getD i emptyHP = st.buckets.getD i emptyHP := by
    intro i hi hne
    rw [hbuckets, List.getD_append _ _ _ _ (by rw [hsetlen]; exact hi)]
    exact getD_set_ne _ _ (Ne.symm hne)
  have hchain_sp : (lhSplit C st).buckets.getD st.nextSplit emptyHP = redis.1 := by
    rw [hbuckets, List.getD_append _ _ _ _ (by rw [hsetlen]; exact hsplt)]
    exact getD_set_self _ _ hsplt
  have hchain_new : (lhSplit C st).buckets.getD st.buckets.length emptyHP = redis.2 := by
    rw [hbuckets, List.getD_append_right _ _ _ _ (by rw [hsetlen])]
    rw [hsetlen]
    simp
  have hpow : 2 ^ (st.level + 1) * C.N0 = 2 * (2 ^ st.level * C.N0) := by
    rw [Nat.pow_succ]
    ring
  by_cases hro : st.nextSplit + 1 ≥ 2 ^ st.level * C.N0
  · have hroll : st.nextSplit + 1 = 2 ^ st.level * C.N0 := by omega
    have hfields : (lhSplit C st).level = st.level + 1 ∧ (lhSplit C st).nextSplit = 0 ∧
        (lhSplit C st).numBuckets = st.numBuckets + 1 := by
      rw [lhSplit_eq, if_pos hro]
      exact ⟨rfl, rfl, rfl⟩
    obtain ⟨hf1, hf2, hf3⟩ := hfields
    refine ⟨by rw [hf3, hf1, hf2]; omega, by rw [hf1, hf2]; omega,
      by rw [hblen, hf3]; omega, ?_⟩
    intro i hi
    rw [hblen] at hi
    have hro2 := lhBucketIndex_rollover C hN st.level st.nextSplit hroll
    rcases Nat.lt_or_ge i st.buckets.length with hilt | hige
    · by_cases hisp : i = st.nextSplit
      · subst hisp
        rw [hchain_sp]
        refine ⟨hnd1, ?_⟩
        intro r hr
        rw [hf1, hf2]
        rw [(lhBucketIndex_rollover C hN st.level st.nextSplit hroll (rkey r)).1]
        exact (hm1 r hr).2
      · rw [hchain_ne i hilt hisp]
        refine ⟨(hinv i hilt).1, ?_⟩
        intro r hr
        rw [hf1, hf2]
        rw [(lhBucketIndex_rollover C hN st.level st.nextSplit hroll (rkey r)).1]
        exact (lhBucketIndex_rollover C hN st.level st.nextSplit hroll (rkey r)).2 i
          ((hinv i hilt).2 r hr) (by exact_mod_cast fun h => hisp (by exact_mod_cast h))
    · have hieq : i = st.buckets.length := by omega
      subst hieq
      rw [hchain_new]
      refine ⟨hnd2, ?_⟩
      intro r hr
      rw [hf1, hf2]
      rw [(lhBucketIndex_rollover C hN st.level st.nextSplit hroll (rkey r)).1]
      have hold := holdaddr r (hm2 r hr).1
      have hc4 := (lhBucketIndex_advance C hN st.level st.nextSplit hsp (rkey r)).2.2.2 hold
      have hne2 := (hm2 r hr).2
      have hval : lhHash C (rkey r) (st.level + 1) =
          (st.nextSplit : Int) + ((2 ^ st.level * C.N0 : Nat) : Int) := by
        rcases hc4 with h | h
        · exact absurd h hne2
        · exact h
      omega
  · have hfields : (lhSplit C st).level = st.level ∧
        (lhSplit C st).nextSplit = st.nextSplit + 1 ∧
        (lhSplit C st).numBuckets = st.numBuckets + 1 := by
      rw [lhSplit_eq, if_neg hro]
      exact ⟨rfl, rfl, rfl⟩
    obtain ⟨hf1, hf2, hf3⟩ := hfields
    refine ⟨by rw [hf3, hf1, hf2]; omega, by rw [hf1, hf2]; omega,
      by rw [hblen, hf3]; omega, ?_⟩
    intro i hi
    rw [hblen] at hi
    have hadv := fun k => lhBucketIndex_advance C hN st.level st.nextSplit hsp k
    rcases Nat.lt_or_ge i st.buckets.length with hilt | hige
    · by_cases hisp : i = st.nextSplit
      · subst hisp
        rw [hchain_sp]
        refine ⟨hnd1, ?_⟩
        intro r hr
        rw [hf1, hf2]
        exact (hadv (rkey r)).2.1 (hm1 r hr).2
      · rw [hchain_ne i hilt hisp]
        refine ⟨(hinv i hilt).1, ?_⟩
        intro r hr
        rw [hf1, hf2]
        exact (hadv (rkey r)).1 i ((hinv i hilt).2 r hr)
          (by exact_mod_cast fun h => hisp (by exact_mod_cast h))
    · have hieq : i = st.buckets.length := by omega
      subst hieq
      rw [hchain_new]
      refine ⟨hnd2, ?_⟩
      intro r hr
      rw [hf1, hf2]
      have hold := holdaddr r (hm2 r hr).1
      have hc4 := (hadv (rkey r)).2.2.2 hold
      have hne2 := (hm2 r hr).2
      have hval : lhHash C (rkey r) (st.level + 1) =
          (st.nextSplit : Int) + ((2 ^ st.level * C.N0 : Nat) : Int) := by
        rcases hc4 with h | h
        · exact absurd h hne2
        · exact h
      have := (hadv (rkey r)).2.2.1 hval
      omega

/-- `insert` preserves the engine invariant. -/
theorem lhInsert_good (C : HCtx) (hN : 1 ≤ C.N0) (st : LHState) (r : Rec)
    (hG : GoodLH C st) : GoodLH C (lhInsert C st r).2 := by
  obtain ⟨hnum, hsp, hlen, hinv⟩ := hG
  rw [lhInsert_eq]
  rcases hok : (lhTryIns C st r).1 with _ | _
  · simp only [hok, Bool.false_eq_true, if_false]
    exact ⟨hnum, hsp, hlen, hinv⟩
  · have hrange := lhBucketIndex_range C hN st.level st.nextSplit (le_of_lt hsp) (rkey r)
    have hcast : ((lhIdxOf C st r : Nat) : Int) =
        lhBucketIndex C st.level st.nextSplit (rkey r) := by
      unfold lhIdxOf
      exact Int.toNat_of_nonneg hrange.1
    have hidxlt : lhIdxOf C st r < st.buckets.length := by
      rw [hlen, hnum]
      unfold lhIdxOf
      omega
    have hempty := hInsert_true_imp C (st.buckets.getD (lhIdxOf C st r) emptyHP) r
      (by exact hok)
    have hperm := (hInsert_new C (st.buckets.getD (lhIdxOf C st r) emptyHP) r hempty).2
    have hG1 : GoodLH C (lhPostIns C st r) := by
      refine ⟨hnum, hsp, by simp [lhPostIns, hlen], ?_⟩
      intro i hi
      have hi' : i < st.buckets.length := by simpa [lhPostIns] using hi
      by_cases hieq : i = lhIdxOf C st r
      · subst hieq
        have hchain : (lhPostIns C st r).buckets.getD (lhIdxOf C st r) emptyHP =
            (lhTryIns C st r).2 := by
          simp only [lhPostIns]
          exact getD_set_self _ _ hidxlt
        rw [hchain]
        constructor
        · refine (hperm.map rkey).nodup_iff.mpr ?_
          rw [List.map_append, List.nodup_append]
          refine ⟨(hinv _ hi').1, by simp, ?_⟩
          intro a ha hb
          simp only [List.map_cons, List.map_nil, List.mem_cons, List.not_mem_nil,
            or_false] at hb
          rw [hSearch_eq_nil_iff] at hempty
          rcases List.mem_map.mp ha with ⟨y, hy, hyk⟩
          exact hempty y hy (by rw [hyk, hb])
        · intro x hx
          rcases List.mem_append.mp (hperm.mem_iff.mp hx) with h1 | h2
          · exact (hinv _ hi').2 x h1
          · simp only [List.mem_cons, List.not_mem_nil, or_false] at h2
            subst h2
            simp only [lhPostIns]
            exact hcast.symm
      · have hchain : (lhPostIns C st r).buckets.getD i emptyHP =
            st.buckets.getD i emptyHP := by
          simp only [lhPostIns]
          exact getD_set_ne _ _ (Ne.symm hieq)
        rw [hchain]
        exact hinv i hi'
    simp only [hok, if_true]
    rcases hns : lhNeedSplit C (lhPostIns C st r) with _ | _
    · simpa using hG1
    · simpa using lhSplit_good C hN (lhPostIns C st r) hG1

/-- `remove` preserves the engine invariant. -/
theorem lhRemove_good (C : HCtx) (hN : 1 ≤ C.N0) (st : LHState) (k : Int)
    (hG : GoodLH C st) : GoodLH C (lhRemove C st k).2 := by
  obtain ⟨hnum, hsp, hlen, hinv⟩ := hG
  simp only [lhRemove]
  set idx := (lhBucketIndex C st.level st.nextSplit k).toNat with hidx
  rcases hok : (hRemove (st.buckets.getD idx emptyHP) k).1 with _ | _
  · simp only [Bool.false_eq_true, if_false]
    exact ⟨hnum, hsp, hlen, hinv⟩
  · simp only [if_true]
    refine ⟨hnum, hsp, by simp [hlen], ?_⟩
    intro i hi
    have hi' : i < st.buckets.length := by simpa using hi
    by_cases hieq : i = idx
    · subst hieq
      have hchain : ((st.buckets.set idx (hRemove (st.buckets.getD idx emptyHP) k).2).getD
          idx emptyHP) = (hRemove (st.buckets.getD idx emptyHP) k).2 :=
        getD_set_self _ _ hi'
      rw [hchain]
      have hsub := hRemove_sublist (st.buckets.getD idx emptyHP) k
      constructor
      · exact ((hsub.map rkey).nodup (hinv idx hi').1)
      · intro x hx
        exact (hinv idx hi').2 x (hsub.mem hx)
    · have hchain : ((st.buckets.set idx (hRemove (st.buckets.getD idx emptyHP) k).2).getD
          i emptyHP) = st.buckets.getD i emptyHP :=
        getD_set_ne _ _ (Ne.symm hieq)
      rw [hchain]
      exact hinv i hi'

/-- The engine invariant holds in every reachable state. -/
theorem hreach_good (C : HCtx) (hN : 1 ≤ C.N0) (st : LHState) (h : HReach C st) :
    GoodLH C st := by
  induction h with
  | init =>
    refine ⟨by simp [lhInit], by simp [lhInit]; omega, by simp [lhInit], ?_⟩
    intro i hi
    have hi' : i < C.N0 := by simpa [lhInit] using hi
    have : (lhInit C).buckets.getD i emptyHP = emptyHP := by
      simp only [lhInit]
      exact getD_replicate _ _ hi'
    rw [this]
    exact ⟨by simp [chainRecs, emptyHP], by simp [chainRecs, emptyHP]⟩
  | ins st r _ ih => exact lhInsert_good C hN st r ih
  | rem st k _ ih => exact lhRemove_good C hN st k ih

/-- C4: in every reachable engine state, every stored record lives in the
chain at the index the composite addressing rule computes from the current
level and split pointer — and is therefore found by `search`: no split ever
makes a stored key unreachable. -/
theorem claim_C4_addressing (C : HCtx) (hN : 1 ≤ C.N0) (st : LHState) (h : HReach C st) :
    ∀ i, i < st.buckets.length → ∀ r ∈ chainRecs (st.buckets.getD i emptyHP),
      lhBucketIndex C st.level st.nextSplit (rkey r) = (i : Int) ∧
      lhSearch C st (rkey r) ≠ [] := by
  have hG := hreach_good C hN st h
  intro i hi r hr
  have haddr := (hG.2.2.2 i hi).2 r hr
  refine ⟨haddr, ?_⟩
  unfold lhSearch
  rw [haddr]
  rw [show ((i : Int)).toNat = i from rfl]
  intro hnil
  rw [hSearch_eq_nil_iff] at hnil
  exact hnil r hr rfl

/-- Witness for C4 at the state reached by inserting `[7,1]` into a fresh
default engine. -/
theorem claim_C4_witness :
    1 ≤ Ch.N0 ∧
    (∀ i, i < (lhInsert Ch (lhInit Ch) [7,1]).2.buckets.length →
      ∀ r ∈ chainRecs ((lhInsert Ch (lhInit Ch) [7,1]).2.buckets.getD i emptyHP),
        lhBucketIndex Ch (lhInsert Ch (lhInit Ch) [7,1]).2.level
            (lhInsert Ch (lhInit Ch) [7,1]).2.nextSplit (rkey r) = (i : Int) ∧
        lhSearch Ch (lhInsert Ch (lhInit Ch) [7,1]).2 (rkey r) ≠ []) :=
  ⟨by decide, claim_C4_addressing Ch (by decide) (lhInsert Ch (lhInit Ch) [7,1]).2
    (HReach.ins (lhInit Ch) [7,1] HReach.init)⟩

/-! ### Search-after-insert on two-level trees (claim C1, amended) -/

/-- The payload of an internal page whose children are leaves, presented as
the first leaf followed by (separator, leaf) pairs — exactly the alternating
layout `[c0, k0, c1, …]` the source maintains while only leaf pages have
been split. -/
def mkNode (L0 : List Rec) (pairs : List (Int × List Rec)) : List Cell :=
  Cell.child (.leaf L0) ::
    pairs.flatMap (fun kv => [Cell.key kv.1, Cell.child (.leaf kv.2)])

theorem mkNode_cons (L0 : List Rec) (k0 : Int) (L1 : List Rec)
    (rest : List (Int × List Rec)) :
    mkNode L0 ((k0, L1) :: rest) = Cell.child (.leaf L0) :: Cell.key k0 :: mkNode L1 rest := by
  simp [mkNode]

/-- Lower bound on a leaf's keys (no bound for the leftmost child). -/
def LBound : Option Int → List Rec → Prop
  | none, _ => True
  | some a, L => ∀ x ∈ leafKeys L, a ≤ x

/-- Lower bound on a single key. -/
def LBoundK : Option Int → Int → Prop
  | none, _ => True
  | some a, b => a ≤ b

/-- The ordering invariant of a two-level tree: every leaf is sorted, every
leaf's keys lie between its surrounding separators (weak bounds — duplicate
keys may equal a separator), and separators increase along the payload. -/
def NodeInv : Option Int → List Rec → List (Int × List Rec) → Prop
  | lo, L0, [] => (leafKeys L0).Sorted (· ≤ ·) ∧ LBound lo L0
  | lo, L0, (k0, L1) :: rest =>
      (leafKeys L0).Sorted (· ≤ ·) ∧ LBound lo L0 ∧ (∀ x ∈ leafKeys L0, x ≤ k0) ∧
      LBoundK lo k0 ∧ NodeInv (some k0) L1 rest

theorem keyList_mkNode_nil (L0 : List Rec) : keyList (mkNode L0 []) = [] := rfl

theorem keyList_mkNode_cons (L0 : List Rec) (k0 : Int) (L1 : List Rec)
    (rest : List (Int × List Rec)) :
    keyList (mkNode L0 ((k0, L1) :: rest)) = k0 :: keyList (mkNode L1 rest) := by
  rw [mkNode_cons]
  rfl

theorem nodeInv_keys_ge :
    ∀ (a : Int) (L0 : List Rec) (pairs : List (Int × List Rec)),
      NodeInv (some a) L0 pairs → ∀ x ∈ keyList (mkNode L0 pairs), a ≤ x
  | a, L0, [], hInv => by
    rw [keyList_mkNode_nil]
    intro x hx
    exact absurd hx (List.not_mem_nil x)
  | a, L0, (k0, L1) :: rest, hInv => by
    rw [keyList_mkNode_cons]
    intro x hx
    rcases hInv with ⟨_, _, _, hk0, hrest⟩
    rcases List.mem_cons.mp hx with rfl | hx'
    · exact hk0
    · exact le_trans hk0 (nodeInv_keys_ge k0 L1 rest hrest x hx')

theorem nodeInv_sorted :
    ∀ (lo : Option Int) (L0 : List Rec) (pairs : List (Int × List Rec)),
      NodeInv lo L0 pairs → (keyList (mkNode L0 pairs)).Sorted (· ≤ ·)
  | lo, L0, [], hInv => by rw [keyList_mkNode_nil]; exact List.sorted_nil
  | lo, L0, (k0, L1) :: rest, hInv => by
    rw [keyList_mkNode_cons]
    rcases hInv with ⟨_, _, _, hk0, hrest⟩
    rw [List.sorted_cons]
    exact ⟨fun b hb => nodeInv_keys_ge k0 L1 rest hrest b hb,
      nodeInv_sorted (some k0) L1 rest hrest⟩

theorem getD_mem {K : List α} {n : Nat} (d : α) (h : n < K.length) : K.getD n d ∈ K := by
  rw [List.getD_eq_getElem K d h]
  exact List.getElem_mem h

theorem sorted_take_le_drop {K : List Int} (hs : K.Sorted (· ≤ ·)) (m : Nat) :
    ∀ a ∈ K.take m, ∀ b ∈ K.drop m, a ≤ b := by
  have := List.take_append_drop m K
  rw [List.Sorted, ← this, List.pairwise_append] at hs
  exact hs.2.2

theorem sorted_head_le {K : List Int} (hs : K.Sorted (· ≤ ·)) :
    ∀ x ∈ K, K.getD 0 0 ≤ x := by
  cases K with
  | nil => simp
  | cons a t =>
    intro x hx
    rcases List.mem_cons.mp hx with rfl | hx'
    · simp
    · simpa using (List.sorted_cons.mp hs).1 x hx'

theorem leafInsert_mem_subset {d : List Rec} {r x : Rec}
    (hs : (leafKeys d).Sorted (· ≤ ·)) (hx : x ∈ leafInsert d r) : x ∈ d ∨ x = r := by
  rw [leafInsert_decomp r hs] at hx
  rcases List.mem_append.mp hx with h1 | h2
  · exact Or.inl ((List.takeWhile_sublist _).mem h1)
  · rcases List.mem_cons.mp h2 with rfl | h3
    · exact Or.inr rfl
    · exact Or.inl ((List.dropWhile_sublist _).mem h3)

/-- Where the freshly inserted record lands relative to a cut at position
`m`, and how its key compares with the separator (the record at `m`): either
it sits in the left part and is strictly below the separator, or it sits in
the right part and the separator is at most its key. -/
theorem leafInsert_split_facts (d : List Rec) (r : Rec)
    (hs : (leafKeys d).Sorted (· ≤ ·)) (m : Nat)
    (hm : m < (leafInsert d r).length) :
    (r ∈ (leafInsert d r).take m ∧ rkey r < rkey ((leafInsert d r).getD m [])) ∨
    (r ∈ (leafInsert d r).drop m ∧ rkey ((leafInsert d r).getD m []) ≤ rkey r) := by
  set p : Rec → Bool := fun x => decide (rkey x ≤ rkey r) with hp
  have hdec := leafInsert_decomp r hs
  set T := d.takeWhile p with hT
  set D := d.dropWhile p with hD
  rcases Nat.lt_or_ge T.length m with hcase | hcase
  · left
    constructor
    · rw [hdec]
      rw [show m = T.length + (m - T.length) from by omega, List.take_append]
      refine List.mem_append.mpr (Or.inr ?_)
      rw [show m - T.length = (m - T.length - 1) + 1 from by omega]
      simp
    · rw [hdec, List.getD_append_right _ _ _ _ (by omega)]
      rw [show m - T.length = (m - T.length - 1) + 1 from by omega, List.getD_cons_succ]
      have hmD : m - T.length - 1 < D.length := by
        rw [hdec] at hm
        simp only [List.length_append, List.length_cons] at hm
        omega
      have hmem : D.getD (m - T.length - 1) [] ∈ D := getD_mem [] hmD
      refine dropWhile_gt_of_sorted (k := rkey r) hs (rkey (D.getD (m - T.length - 1) [])) ?_
      unfold leafKeys
      rw [List.dropWhile_map]
      exact List.mem_map_of_mem rkey hmem
  · right
    constructor
    · rw [hdec, List.drop_append_of_le_length (by omega)]
      exact List.mem_append.mpr (Or.inr (List.mem_cons_self r _))
    · rcases Nat.lt_or_ge m T.length with hlt | hge
      · rw [hdec, List.getD_append _ _ _ _ hlt]
        have hmem : T.getD m [] ∈ T := getD_mem [] hlt
        have := List.mem_takeWhile_imp hmem
        rw [hp] at this
        simpa using this
      · have heq : m = T.length := by omega
        rw [hdec, heq, List.getD_append_right _ _ _ _ (le_refl _)]
        simp

/-- The payload cells contributed by the (separator, leaf) pairs. -/
def tailCells (pairs : List (Int × List Rec)) : List Cell :=
  pairs.flatMap (fun kv => [Cell.key kv.1, Cell.child (.leaf kv.2)])

theorem mkNode_eq_tail (X : List Rec) (pairs : List (Int × List Rec)) :
    mkNode X pairs = Cell.child (.leaf X) :: tailCells pairs := rfl

theorem getD_drop (l : List α) (m n : Nat) (d : α) :
    (l.drop m).getD n d = l.getD (m + n) d := by
  simp [List.getD_eq_getElem?_getD, List.getElem?_drop]

theorem rkey_getD {L : List Rec} {m : Nat} (h : m < L.length) :
    rkey (L.getD m []) = (leafKeys L).getD m 0 := by
  rw [List.getD_eq_getElem L [] h]
  rw [List.getD_eq_getElem (leafKeys L) 0 (by simpa [leafKeys] using h)]
  simp [leafKeys, rkey]

theorem leafKeys_take (L : List Rec) (m : Nat) :
    leafKeys (L.take m) = (leafKeys L).take m := by
  simp [leafKeys, List.map_take]

theorem leafKeys_drop (L : List Rec) (m : Nat) :
    leafKeys (L.drop m) = (leafKeys L).drop m := by
  simp [leafKeys, List.map_drop]

theorem sorted_take {K : List Int} (hs : K.Sorted (· ≤ ·)) (m : Nat) :
    (K.take m).Sorted (· ≤ ·) := hs.sublist (List.take_sublist m K)

theorem sorted_drop {K : List Int} (hs : K.Sorted (· ≤ ·)) (m : Nat) :
    (K.drop m).Sorted (· ≤ ·) := hs.sublist (List.drop_sublist m K)

theorem lbound_leafInsert {lo : Option Int} {L0 : List Rec} {r : Rec}
    (hs : (leafKeys L0).Sorted (· ≤ ·)) (hL : LBound lo L0) (hk : LBoundK lo (rkey r)) :
    LBound lo (leafInsert L0 r) := by
  cases lo with
  | none => trivial
  | some a =>
    intro x hx
    rcases List.mem_map.mp hx with ⟨y, hy, rfl⟩
    rcases leafInsert_mem_subset hs hy with h1 | rfl
    · exact hL (rkey y) (List.mem_map_of_mem rkey h1)
    · exact hk

theorem ubound_leafInsert {L0 : List Rec} {r : Rec} {k0 : Int}
    (hs : (leafKeys L0).Sorted (· ≤ ·)) (hU : ∀ x ∈ leafKeys L0, x ≤ k0)
    (hk : rkey r ≤ k0) : ∀ x ∈ leafKeys (leafInsert L0 r), x ≤ k0 := by
  intro x hx
  rcases List.mem_map.mp hx with ⟨y, hy, rfl⟩
  rcases leafInsert_mem_subset hs hy with h1 | rfl
  · exact hU (rkey y) (List.mem_map_of_mem rkey h1)
  · exact hk

theorem lbound_subset {a : Int} {L L' : List Rec}
    (hsub : ∀ x ∈ L', x ∈ L) (hL : ∀ x ∈ leafKeys L, a ≤ x) :
    LBound (some a) L' := by
  intro x hx
  rcases List.mem_map.mp hx with ⟨y, hy, rfl⟩
  exact hL (rkey y) (List.mem_map_of_mem rkey (hsub y hy))

theorem ubIdx_cons (k0 : Int) (K : List Int) (k : Int) :
    ubIdx (k0 :: K) k = if k0 ≤ k then ubIdx K k + 1 else 0 := by
  by_cases h : k0 ≤ k <;> simp [ubIdx, List.takeWhile_cons, h]

theorem insCells_cons_cons (C : BCtx) (a b : Cell) (t : List Cell) (n : Nat) (r : Rec) :
    insCells C (a :: b :: t) (n + 2) r = a :: b :: insCells C t n r := rfl

theorem searchCells_cons_cons (a b : Cell) (t : List Cell) (n : Nat) (k : Int) :
    searchCells (a :: b :: t) (n + 2) k = searchCells t n k := rfl

theorem self_mem_leafInsert (d : List Rec) (r : Rec) : r ∈ leafInsert d r := by
  unfold leafInsert pyInsert
  exact List.mem_append.mpr (Or.inr (List.mem_cons_self _ _))

theorem mem_filter_self {L : List Rec} {r : Rec} (h : r ∈ L) :
    r ∈ L.filter (fun x => rkey x = rkey r) :=
  List.mem_filter.mpr ⟨h, by simp⟩

theorem searchCells_mkNode_zero (M0 : List Rec) (qs : List (Int × List Rec)) (k : Int) :
    searchCells (mkNode M0 qs) 0 k = M0.filter (fun x => rkey x = k) := rfl

theorem searchCells_two (a b : Cell) (t : List Cell) (k : Int) :
    searchCells (a :: b :: t) 2 k = searchCells t 0 k := rfl

theorem ubIdx_mkNode_zero (M0 : List Rec) (qs : List (Int × List Rec)) (k : Int)
    (h : ∀ k0 L1 rest, qs = (k0, L1) :: rest → ¬ k0 ≤ k) :
    ubIdx (keyList (mkNode M0 qs)) k = 0 := by
  cases qs with
  | nil => rfl
  | cons q rest =>
    obtain ⟨k0, L1⟩ := q
    rw [keyList_mkNode_cons, ubIdx_cons, if_neg (h k0 L1 rest rfl)]

theorem splitP_leaf_fst (d : List Rec) :
    (splitP (.leaf d)).1 = .leaf (d.take (d.length / 2)) := rfl

theorem splitP_leaf_snd (d : List Rec) :
    (splitP (.leaf d)).2 = .leaf (d.drop (d.length / 2)) := rfl

theorem sepKeyFor_leaf_drop (d : List Rec) :
    sepKeyFor (.leaf d) (splitP (.leaf d)).2 = rkey (d.getD (d.length / 2) []) := by
  rw [splitP_leaf_snd]
  show rkey ((d.drop (d.length / 2)).getD 0 []) = rkey (d.getD (d.length / 2) [])
  rw [getD_drop, Nat.add_zero]

theorem lbound_mono {lo : Option Int} {L L' : List Rec}
    (hsub : ∀ x ∈ L', x ∈ L) (h : LBound lo L) : LBound lo L' := by
  cases lo with
  | none => trivial
  | some a =>
    intro x hx
    rcases List.mem_map.mp hx with ⟨y, hy, rfl⟩
    exact h (rkey y) (List.mem_map_of_mem rkey (hsub y hy))

theorem nodeInv_sorted0 (lo : Option Int) (L0 : List Rec) (pairs : List (Int × List Rec))
    (h : NodeInv lo L0 pairs) : (leafKeys L0).Sorted (· ≤ ·) := by
  cases pairs with
  | nil => obtain ⟨h1, -⟩ := h; exact h1
  | cons q rest =>
    obtain ⟨k0, L1⟩ := q
    obtain ⟨h1, -⟩ := h
    exact h1

theorem nodeInv_lb0 (lo : Option Int) (L0 : List Rec) (pairs : List (Int × List Rec))
    (h : NodeInv lo L0 pairs) : LBound lo L0 := by
  cases pairs with
  | nil => obtain ⟨-, h2⟩ := h; exact h2
  | cons q rest =>
    obtain ⟨k0, L1⟩ := q
    obtain ⟨-, h2, -⟩ := h
    exact h2

theorem nodeInv_replace_head (lo lo' : Option Int) (L0 M0 : List Rec)
    (pairs : List (Int × List Rec)) (h : NodeInv lo L0 pairs)
    (hs : (leafKeys M0).Sorted (· ≤ ·)) (hlb : LBound lo' M0)
    (hub : ∀ k0 L1 rest, pairs = (k0, L1) :: rest →
      (∀ x ∈ leafKeys M0, x ≤ k0) ∧ LBoundK lo' k0) :
    NodeInv lo' M0 pairs := by
  cases pairs with
  | nil => exact ⟨hs, hlb⟩
  | cons q rest =>
    obtain ⟨k0, L1⟩ := q
    obtain ⟨-, -, -, -, hsub⟩ := h
    obtain ⟨h1, h2⟩ := hub k0 L1 rest rfl
    exact ⟨hs, hlb, h1, h2, hsub⟩

/-- Inserting at child position 0 of a two-level payload (the record's key is
below every separator): the payload stays a two-level payload, the ordering
invariant is preserved, and a search for the new key finds the record —
whether or not the target leaf overflows and is split in place. -/
theorem ins_found_zero (C : BCtx) (lo : Option Int) (L0 : List Rec)
    (pairs : List (Int × List Rec)) (r : Rec)
    (hInv : NodeInv lo L0 pairs) (hlo : LBoundK lo (rkey r))
    (hub : ∀ k0 L1 rest, pairs = (k0, L1) :: rest → rkey r < k0) :
    ∃ (M0 : List Rec) (qs : List (Int × List Rec)),
      insCells C (mkNode L0 pairs) 0 r = mkNode M0 qs ∧ NodeInv lo M0 qs ∧
        r ∈ searchCells (mkNode M0 qs)
          (2 * binSearch (keyList (mkNode M0 qs)) (rkey r)) (rkey r) := by
  have hs0 := nodeInv_sorted0 lo L0 pairs hInv
  have hlb0 := nodeInv_lb0 lo L0 pairs hInv
  have hstep : insCells C (mkNode L0 pairs) 0 r
      = insHead C (Cell.child (TPage.leaf L0)) (tailCells pairs) r := rfl
  rw [hstep]
  simp only [insHead, insP]
  by_cases hov : usedSpace C (TPage.leaf (leafInsert L0 r)) > C.S
  · -- the leaf overflows: it is split in place, a separator is inserted
    rw [if_pos hov, sepKeyFor_leaf_drop, splitP_leaf_fst, splitP_leaf_snd]
    set L' := leafInsert L0 r with hL'
    set m := L'.length / 2 with hm
    set s := rkey (L'.getD m []) with hs_def
    have hrmem : r ∈ L' := by rw [hL']; exact self_mem_leafInsert L0 r
    have hpos : 0 < L'.length := List.length_pos_of_mem hrmem
    have hmlt : m < L'.length := by rw [hm]; exact Nat.div_lt_self hpos (by omega)
    have hmlt' : m < (leafKeys L').length := by simpa [leafKeys] using hmlt
    have hsL' : (leafKeys L').Sorted (· ≤ ·) := by rw [hL']; exact leafInsert_sorted r hs0
    have hlbL' : LBound lo L' := by rw [hL']; exact lbound_leafInsert hs0 hlb0 hlo
    have hfacts := leafInsert_split_facts L0 r hs0 m (by rw [← hL']; exact hmlt)
    rw [← hL', ← hs_def] at hfacts
    have hsA : (leafKeys (L'.take m)).Sorted (· ≤ ·) := by
      rw [leafKeys_take]; exact sorted_take hsL' m
    have hsB : (leafKeys (L'.drop m)).Sorted (· ≤ ·) := by
      rw [leafKeys_drop]; exact sorted_drop hsL' m
    have hsmem : s ∈ (leafKeys L').drop m := by
      have h1 : ((leafKeys L').drop m).getD 0 0 ∈ (leafKeys L').drop m :=
        getD_mem 0 (by rw [List.length_drop]; omega)
      rwa [getD_drop, Nat.add_zero, ← rkey_getD hmlt, ← hs_def] at h1
    have hsmemL : s ∈ leafKeys L' := (List.drop_sublist m (leafKeys L')).mem hsmem
    have hlbB : LBound (some s) (L'.drop m) := by
      intro x hx
      rw [leafKeys_drop] at hx
      have h2 := sorted_head_le (sorted_drop hsL' m) x hx
      rwa [getD_drop, Nat.add_zero, ← rkey_getD hmlt, ← hs_def] at h2
    have hubA : ∀ x ∈ leafKeys (L'.take m), x ≤ s := by
      intro x hx
      rw [leafKeys_take] at hx
      exact sorted_take_le_drop hsL' m x hx s hsmem
    have hlbA : LBound lo (L'.take m) :=
      lbound_mono (fun x hx => (List.take_sublist m L').mem hx) hlbL'
    have hloS : LBoundK lo s := by
      cases lo with
      | none => trivial
      | some a => exact hlbL' s hsmemL
    have hInvB : NodeInv (some s) (L'.drop m) pairs := by
      refine nodeInv_replace_head lo (some s) L0 (L'.drop m) pairs hInv hsB hlbB ?_
      intro k0 L1 rest heq
      subst heq
      obtain ⟨-, -, hub0, -, -⟩ := hInv
      have hubL' : ∀ x ∈ leafKeys L', x ≤ k0 := by
        rw [hL']
        exact ubound_leafInsert hs0 hub0 (le_of_lt (hub k0 L1 rest rfl))
      refine ⟨?_, ?_⟩
      · intro x hx
        rw [leafKeys_drop] at hx
        exact hubL' x ((List.drop_sublist m (leafKeys L')).mem hx)
      · exact hubL' s hsmemL
    have hInvA : NodeInv lo (L'.take m) ((s, L'.drop m) :: pairs) :=
      ⟨hsA, hlbA, hubA, hloS, hInvB⟩
    refine ⟨L'.take m, (s, L'.drop m) :: pairs, ?_, hInvA, ?_⟩
    · rw [mkNode_cons, mkNode_eq_tail]
    · have hsK2 := nodeInv_sorted _ _ _ hInvA
      rw [binSearch_eq_ubIdx hsK2, keyList_mkNode_cons, ubIdx_cons]
      rcases hfacts with ⟨hmemA, hlt⟩ | ⟨hmemB, hge⟩
      · rw [if_neg (not_le.mpr hlt), Nat.mul_zero, searchCells_mkNode_zero]
        exact mem_filter_self hmemA
      · rw [if_pos hge, ubIdx_mkNode_zero (L'.drop m) pairs (rkey r)
          (fun a b c heq => by subst heq; exact not_le.mpr (hub a b c rfl))]
        rw [show 2 * (0 + 1) = 2 from rfl, mkNode_cons, searchCells_two,
            searchCells_mkNode_zero]
        exact mem_filter_self hmemB
  · -- the leaf absorbs the record without overflowing
    rw [if_neg hov]
    have hsL' : (leafKeys (leafInsert L0 r)).Sorted (· ≤ ·) := leafInsert_sorted r hs0
    have hlbL' : LBound lo (leafInsert L0 r) := lbound_leafInsert hs0 hlb0 hlo
    have hInv' : NodeInv lo (leafInsert L0 r) pairs := by
      refine nodeInv_replace_head lo lo L0 (leafInsert L0 r) pairs hInv hsL' hlbL' ?_
      intro k0 L1 rest heq
      subst heq
      obtain ⟨-, -, hub0, hk0, -⟩ := hInv
      exact ⟨ubound_leafInsert hs0 hub0 (le_of_lt (hub k0 L1 rest rfl)), hk0⟩
    refine ⟨leafInsert L0 r, pairs, by rw [mkNode_eq_tail], hInv', ?_⟩
    have hsK2 := nodeInv_sorted _ _ _ hInv'
    rw [binSearch_eq_ubIdx hsK2, ubIdx_mkNode_zero (leafInsert L0 r) pairs (rkey r)
        (fun a b c heq => by subst heq; exact not_le.mpr (hub a b c rfl)),
      Nat.mul_zero, searchCells_mkNode_zero]
    exact mem_filter_self (self_mem_leafInsert L0 r)

/-- Recursive insert into a two-level payload under the ordering invariant:
the payload stays two-level, the invariant is preserved, and a search for the
new key after the insert finds the record. -/
theorem ins_found (C : BCtx) (r : Rec) :
    ∀ (pairs : List (Int × List Rec)) (lo : Option Int) (L0 : List Rec),
      NodeInv lo L0 pairs → LBoundK lo (rkey r) →
      ∃ (M0 : List Rec) (qs : List (Int × List Rec)),
        insCells C (mkNode L0 pairs)
            (2 * binSearch (keyList (mkNode L0 pairs)) (rkey r)) r = mkNode M0 qs ∧
          NodeInv lo M0 qs ∧
          r ∈ searchCells (mkNode M0 qs)
            (2 * binSearch (keyList (mkNode M0 qs)) (rkey r)) (rkey r) := by
  intro pairs
  induction pairs with
  | nil =>
    intro lo L0 hInv hlo
    have h0 : binSearch (keyList (mkNode L0 [])) (rkey r) = 0 := rfl
    rw [h0, Nat.mul_zero]
    exact ins_found_zero C lo L0 [] r hInv hlo (fun _ _ _ h => nomatch h)
  | cons q rest ih =>
    obtain ⟨k0, L1⟩ := q
    intro lo L0 hInv hlo
    obtain ⟨hs0, hlb0, hub0, hk0, hsub⟩ := hInv
    have hInvC : NodeInv lo L0 ((k0, L1) :: rest) := ⟨hs0, hlb0, hub0, hk0, hsub⟩
    have hsK : (keyList (mkNode L0 ((k0, L1) :: rest))).Sorted (· ≤ ·) :=
      nodeInv_sorted _ _ _ hInvC
    by_cases hk : k0 ≤ rkey r
    · -- descend right of the first separator
      have hsKsub : (keyList (mkNode L1 rest)).Sorted (· ≤ ·) :=
        nodeInv_sorted _ _ _ hsub
      rw [binSearch_eq_ubIdx hsK, keyList_mkNode_cons, ubIdx_cons, if_pos hk]
      obtain ⟨M1, qs1, heq, hInv1, hmem1⟩ := ih (some k0) L1 hsub hk
      rw [mkNode_cons,
          show 2 * (ubIdx (keyList (mkNode L1 rest)) (rkey r) + 1)
            = 2 * ubIdx (keyList (mkNode L1 rest)) (rkey r) + 2 from by ring,
          insCells_cons_cons, ← binSearch_eq_ubIdx hsKsub, heq]
      have hInv2 : NodeInv lo L0 ((k0, M1) :: qs1) := ⟨hs0, hlb0, hub0, hk0, hInv1⟩
      refine ⟨L0, (k0, M1) :: qs1, by rw [mkNode_cons], hInv2, ?_⟩
      have hsK2 := nodeInv_sorted _ _ _ hInv2
      have hsKsub2 := nodeInv_sorted _ _ _ hInv1
      rw [binSearch_eq_ubIdx hsK2, keyList_mkNode_cons, ubIdx_cons, if_pos hk,
          show 2 * (ubIdx (keyList (mkNode M1 qs1)) (rkey r) + 1)
            = 2 * ubIdx (keyList (mkNode M1 qs1)) (rkey r) + 2 from by ring,
          mkNode_cons, searchCells_cons_cons, ← binSearch_eq_ubIdx hsKsub2]
      exact hmem1
    · -- the key is below the first separator: insert at child position 0
      have h0 : binSearch (keyList (mkNode L0 ((k0, L1) :: rest))) (rkey r) = 0 := by
        rw [binSearch_eq_ubIdx hsK]
        exact ubIdx_mkNode_zero L0 _ (rkey r) (fun a b c heq => by
          injection heq with h1 h2
          injection h1 with ha hb
          subst ha
          exact hk)
      rw [h0, Nat.mul_zero]
      exact ins_found_zero C lo L0 ((k0, L1) :: rest) r hInvC hlo
        (fun a b c heq => by
          injection heq with h1 h2
          injection h1 with ha hb
          subst ha
          exact not_le.mp hk)

/-- Leaf root, no overflow: the search result after the insert is exactly the
old matches followed by the new record. -/
theorem btInsert_leaf_exact (C : BCtx) (d : List Rec) (r : Rec)
    (hs : (leafKeys d).Sorted (· ≤ ·))
    (hov : ¬ usedSpace C (TPage.leaf (leafInsert d r)) > C.S) :
    btSearch (btInsert C (.leaf d) r) (rkey r)
      = d.filter (fun x => rkey x = rkey r) ++ [r] := by
  simp only [btInsert, insP]
  rw [if_neg hov]
  show (leafInsert d r).filter (fun x => rkey x = rkey r)
      = d.filter (fun x => rkey x = rkey r) ++ [r]
  exact leafInsert_filter r hs

/-- Leaf root that overflows: the root is split in two and a fresh internal
root installed; the new record is still found on the correct side. -/
theorem btInsert_leaf_split_found (C : BCtx) (d : List Rec) (r : Rec)
    (hs : (leafKeys d).Sorted (· ≤ ·))
    (hov : usedSpace C (TPage.leaf (leafInsert d r)) > C.S) :
    r ∈ btSearch (btInsert C (.leaf d) r) (rkey r) := by
  simp only [btInsert, insP]
  rw [if_pos hov, sepKeyFor_leaf_drop, splitP_leaf_fst, splitP_leaf_snd]
  set L' := leafInsert d r with hL'
  set m := L'.length / 2 with hm
  set s := rkey (L'.getD m []) with hs_def
  have hrmem : r ∈ L' := by rw [hL']; exact self_mem_leafInsert d r
  have hpos : 0 < L'.length := List.length_pos_of_mem hrmem
  have hmlt : m < L'.length := by rw [hm]; exact Nat.div_lt_self hpos (by omega)
  have hmlt' : m < (leafKeys L').length := by simpa [leafKeys] using hmlt
  have hsL' : (leafKeys L').Sorted (· ≤ ·) := by rw [hL']; exact leafInsert_sorted r hs
  have hfacts := leafInsert_split_facts d r hs m (by rw [← hL']; exact hmlt)
  rw [← hL', ← hs_def] at hfacts
  have hsA : (leafKeys (L'.take m)).Sorted (· ≤ ·) := by
    rw [leafKeys_take]; exact sorted_take hsL' m
  have hsB : (leafKeys (L'.drop m)).Sorted (· ≤ ·) := by
    rw [leafKeys_drop]; exact sorted_drop hsL' m
  have hsmem : s ∈ (leafKeys L').drop m := by
    have h1 : ((leafKeys L').drop m).getD 0 0 ∈ (leafKeys L').drop m :=
      getD_mem 0 (by rw [List.length_drop]; omega)
    rwa [getD_drop, Nat.add_zero, ← rkey_getD hmlt, ← hs_def] at h1
  have hlbB : LBound (some s) (L'.drop m) := by
    intro x hx
    rw [leafKeys_drop] at hx
    have h2 := sorted_head_le (sorted_drop hsL' m) x hx
    rwa [getD_drop, Nat.add_zero, ← rkey_getD hmlt, ← hs_def] at h2
  have hubA : ∀ x ∈ leafKeys (L'.take m), x ≤ s := by
    intro x hx
    rw [leafKeys_take] at hx
    exact sorted_take_le_drop hsL' m x hx s hsmem
  have hInvA : NodeInv none (L'.take m) [(s, L'.drop m)] :=
    ⟨hsA, trivial, hubA, trivial, hsB, hlbB⟩
  show r ∈ searchCells (mkNode (L'.take m) [(s, L'.drop m)])
      (2 * binSearch (keyList (mkNode (L'.take m) [(s, L'.drop m)])) (rkey r)) (rkey r)
  have hsK2 := nodeInv_sorted _ _ _ hInvA
  rw [binSearch_eq_ubIdx hsK2, keyList_mkNode_cons, ubIdx_cons]
  rcases hfacts with ⟨hmemA, hlt⟩ | ⟨hmemB, hge⟩
  · rw [if_neg (not_le.mpr hlt), Nat.mul_zero, searchCells_mkNode_zero]
    exact mem_filter_self hmemA
  · rw [if_pos hge, keyList_mkNode_nil,
        show ubIdx ([] : List Int) (rkey r) = 0 from rfl,
        show 2 * (0 + 1) = 2 from rfl, mkNode_cons, searchCells_two,
        searchCells_mkNode_zero]
    exact mem_filter_self hmemB

/-- Internal two-level root under the ordering invariant, no root overflow:
the record inserted is found by a subsequent search. -/
theorem btInsert_node_found (C : BCtx) (L0 : List Rec)
    (pairs : List (Int × List Rec)) (r : Rec) (hInv : NodeInv none L0 pairs)
    (hov : ¬ usedSpace C (insP C (.node (mkNode L0 pairs)) r) > C.S) :
    r ∈ btSearch (btInsert C (.node (mkNode L0 pairs)) r) (rkey r) := by
  obtain ⟨M0, qs, heq, hInv', hmem⟩ := ins_found C r pairs none L0 hInv trivial
  have heq' : insP C (.node (mkNode L0 pairs)) r = .node (mkNode M0 qs) := by
    simp only [insP]
    rw [heq]
  simp only [btInsert]
  rw [heq'] at hov ⊢
  rw [if_neg hov]
  exact hmem

/-- C1 (corrected): search-after-insert holds for trees of height at most
two.  On a sorted leaf root that does not overflow, `search(r[0])` after
`insert(r)` returns exactly the old matches followed by `r` (duplicates in
insertion order); on any sorted leaf root — overflowing or not — the record
is found; and on an internal root of leaves satisfying the ordering
invariant whose insert does not overflow the root, the record is found.  The
unrestricted claim is false: `claim_C1_counterexample` exhibits a reachable
tree where a split drops a record (search after insert returns `[]`), so the
claim is amended with the height/overflow provisos. -/
theorem claim_C1_amended (C : BCtx) (r : Rec) (d L0 : List Rec)
    (pairs : List (Int × List Rec)) :
    ((leafKeys d).Sorted (· ≤ ·) →
      ¬ usedSpace C (TPage.leaf (leafInsert d r)) > C.S →
      btSearch (btInsert C (.leaf d) r) (rkey r)
        = d.filter (fun x => rkey x = rkey r) ++ [r]) ∧
    ((leafKeys d).Sorted (· ≤ ·) →
      r ∈ btSearch (btInsert C (.leaf d) r) (rkey r)) ∧
    (NodeInv none L0 pairs →
      ¬ usedSpace C (insP C (.node (mkNode L0 pairs)) r) > C.S →
      r ∈ btSearch (btInsert C (.node (mkNode L0 pairs)) r) (rkey r)) := by
  refine ⟨fun hs hov => btInsert_leaf_exact C d r hs hov, fun hs => ?_,
    fun hInv hov => btInsert_node_found C L0 pairs r hInv hov⟩
  by_cases hov : usedSpace C (TPage.leaf (leafInsert d r)) > C.S
  · exact btInsert_leaf_split_found C d r hs hov
  · rw [btInsert_leaf_exact C d r hs hov]
    exact List.mem_append.mpr (Or.inr (List.mem_cons_self _ _))

theorem claim_C1_witness :
    btSearch (btInsert Cx (.leaf [[5, 3]]) [5, 9]) (rkey [5, 9])
        = [[5, 3], [5, 9]] ∧
    ([161, 0] : Rec) ∈ btSearch
      (btInsert Cx (.node (mkNode [[100, 0]] [(150, [[150, 0], [160, 0]])])) [161, 0])
      (rkey [161, 0]) := by
  constructor
  · have h := (claim_C1_amended Cx [5, 9] [[5, 3]] [] []).1 (by decide) (by decide)
    rw [h]
    rfl
  · exact (claim_C1_amended Cx [161, 0] [] [[100, 0]] [(150, [[150, 0], [160, 0]])]).2.2
      ⟨by decide, trivial, by decide, trivial, by decide,
        show ∀ x ∈ leafKeys [[150, 0], [160, 0]], (150 : Int) ≤ x by decide⟩ (by decide)
